import Mathlib

/-!
Verification of the FaunaDB query-expression pretty printer (`src/Expr.js`).

The printer is a recursive renderer turning a dynamically shaped tree of
calls, literals, arrays and records into indented human-readable call
syntax.  The JavaScript keeps three module-level mutable variables
(`keyPath`, `compact`, `printDepth`); the embedding threads an explicit
state record through every call instead and models a thrown `TypeError`
as the result `none`.  Rendering never mutates the input tree in the
source (it only reads it), so trees are plain inductive values here.

Modelling notes (deviations are conservative and documented where used):
* JavaScript numbers are modelled as integers (the repository's scenarios
  only use integer literals); `String(n)` is a decimal printer.
* Property lookup (`specialCases[key]`, `'object' in expr`, `Object.keys`)
  is modelled as own-key lookup on insertion-ordered association lists;
  inherited `Object.prototype` members are outside the model.
* `String.prototype.toUpperCase` is modelled on ASCII letters.
* `Object.keys` applied to a string primitive (reachable only through a
  malformed `object`/`let` payload) is modelled as a failure rather than
  as index-keyed characters; no theorem below relies on that case.
-/

namespace FaunaExpr

/-- Elements of the shared `keyPath` stack: `printArray` pushes the numeric
index `i`, `printObject` and the call branch push the string key. -/
inductive PathElem : Type where
  | idx (i : Nat)
  | str (s : String)
deriving DecidableEq

/-- The JavaScript values `exprToString` consumes.  `vexpr raw` is an `Expr`
instance wrapping `raw` (`new Expr(raw)`); `vvalue v display` is an instance
of an `Expr` subclass that owns a `value` property `v` and whose `toString`
returns `display` (the source's check `'value' in expr`). -/
inductive JsVal : Type where
  | vnull
  | vundefined
  | vbool (b : Bool)
  | vnum (n : Int)
  | vstr (s : String)
  | varr (xs : List JsVal)
  | vobj (fields : List (String × JsVal))
  | vexpr (raw : JsVal)
  | vvalue (v : JsVal) (display : String)

mutual

/-- Size measure used for termination of the renderer. -/
def JsVal.size : JsVal → Nat
  | .varr xs => 1 + JsVal.sizeList xs
  | .vobj fs => 1 + JsVal.sizeFields fs
  | .vexpr r => 1 + r.size
  | .vvalue v _ => 1 + v.size
  | _ => 1

/-- Size of a list of values (each element also counts one). -/
def JsVal.sizeList : List JsVal → Nat
  | [] => 0
  | x :: r => 1 + x.size + JsVal.sizeList r

/-- Size of a field list (each field also counts one). -/
def JsVal.sizeFields : List (String × JsVal) → Nat
  | [] => 0
  | (_, v) :: r => 1 + v.size + JsVal.sizeFields r

end

theorem JsVal.size_pos (v : JsVal) : 0 < v.size := by
  cases v <;> simp [JsVal.size]

/-- Own-key lookup on an insertion-ordered association list; models property
access such as `'object' in expr` / `expr['object']` on plain records. -/
def lookupKey {β : Type} (key : String) : List (String × β) → Option β
  | [] => none
  | (k, v) :: rest => if k == key then some v else lookupKey key rest

theorem lookupKey_size_le (key : String) :
    ∀ (fs : List (String × JsVal)) (v : JsVal),
      lookupKey key fs = some v → v.size + 1 ≤ JsVal.sizeFields fs := by
  intro fs
  induction fs with
  | nil => intro v hv; simp [lookupKey] at hv
  | cons p rest ih =>
    intro v hv
    obtain ⟨k, w⟩ := p
    simp only [lookupKey] at hv
    by_cases hk : (k == key) = true
    · rw [if_pos hk] at hv
      cases hv
      simp only [JsVal.sizeFields]
      omega
    · rw [if_neg hk] at hv
      have := ih v hv
      simp [JsVal.sizeFields]
      omega

/-- Renderer state: the three module-level mutable variables of `Expr.js`
(`keyPath`, `compact`, `printDepth`), threaded explicitly. -/
structure PState where
  keyPath : List PathElem := []
  compact : Bool := false
  printDepth : Nat := 0
deriving DecidableEq

/-- The initial renderer state (`keyPath = []`, `compact = false`,
`printDepth = 0`). -/
def initState : PState := {}

/-- Normalized options: `Expr.toString(expr, true)` corresponds to
`compact = true` (source lines 100-104); `map` is the caller hook, `none`
standing for the identity default. -/
structure POptions where
  compact : Bool := false
  map : Option (String → List PathElem → String) := none

/-- Options with every default: no forced compactness, identity map hook. -/
def defaultOptions : POptions := {}

/-- Application of the map hook: `options.map || identity` (lines 106-110). -/
def applyMap (opts : POptions) (s : String) (path : List PathElem) : String :=
  match opts.map with
  | none => s
  | some f => f s path

/-- The indentation prefix at a given depth: `2 * depth` characters
alternating the marker glyph and a blank (lines 64-68). -/
def indentMarker (depth : Nat) : String :=
  String.mk ((List.range (2 * depth)).map (fun i => if i % 2 == 1 then ' ' else '・'))

/-- The `indent` function applied to a string argument: identity in compact
mode, otherwise the depth-scaled prefix is prepended (lines 54-68). -/
def indent (st : PState) (input : String) : String :=
  if st.compact then input else indentMarker st.printDepth ++ input

/-- The `eol` function: appends a line break unless compact (lines 71-73). -/
def eol (st : PState) (input : String) : String :=
  input ++ (if st.compact then "" else "\n")

/-- The source's `isCompact` predicate on a child value: true exactly when
the value is not an `Expr` instance (line 75-77). -/
def isCompact : JsVal → Bool
  | .vexpr _ => false
  | .vvalue _ _ => false
  | _ => true

/-- The fixed name-override table (lines 42-48). -/
def specialCases : List (String × String) :=
  [("is_nonempty", "IsNonEmpty"), ("lt", "LT"), ("lte", "LTE"),
   ("gt", "GT"), ("gte", "GTE")]

/-- The `varArgsFunctions` list is declared in the source (lines 18-41) but
never consulted by `exprToString` in this revision; kept for completeness. -/
def varArgsFunctions : List String :=
  ["Do", "Call", "Union", "Intersection", "Difference", "Equals", "Add",
   "BitAnd", "BitOr", "BitXor", "Divide", "Max", "Min", "Modulo", "Multiply",
   "Subtract", "LT", "LTE", "GT", "GTE", "And", "Or"]

/-- ASCII model of `String.prototype.toUpperCase` on one character. -/
def jsToUpper (c : Char) : Char :=
  if 'a' ≤ c ∧ c ≤ 'z' then Char.ofNat (c.toNat - 32) else c

/-- The per-segment step `str.charAt(0).toUpperCase() + str.slice(1)`
(lines 179-181). -/
def ucFirst (s : String) : String :=
  match s.data with
  | [] => ""
  | c :: cs => String.mk (jsToUpper c :: cs)

/-- Splitting a character list on underscores, as `key.split('_')` does:
`"" ↦ [""]`, separators at the ends produce empty segments. -/
def splitUnderscore : List Char → List (List Char)
  | [] => [[]]
  | c :: rest =>
    let r := splitUnderscore rest
    if c == '_' then [] :: r
    else
      match r with
      | [] => [[c]]
      | g :: gs => (c :: g) :: gs

/-- The PascalCase fallback of the name resolver: split on `_`, upper-case
each segment's first character, keep inner characters verbatim, concatenate
(lines 177-182). -/
def pascalCase (key : String) : String :=
  String.join ((splitUnderscore key.data).map (fun g => ucFirst (String.mk g)))

/-- Name resolution: the override table first, else PascalCase
(lines 175-182). -/
def resolveName (key : String) : String :=
  match lookupKey key specialCases with
  | some v => v
  | none => pascalCase key

/-- The reversal set check `['Filter', 'Map', 'Foreach'].indexOf(fn) != -1`
(line 207). -/
def shouldReverseArgs (fn : String) : Bool :=
  fn == "Filter" || fn == "Map" || fn == "Foreach"

/-- Decimal digit characters. -/
def digitChar (d : Nat) : Char :=
  if d = 0 then '0' else if d = 1 then '1' else if d = 2 then '2'
  else if d = 3 then '3' else if d = 4 then '4' else if d = 5 then '5'
  else if d = 6 then '6' else if d = 7 then '7' else if d = 8 then '8'
  else '9'

/-- Decimal rendering worker, structurally recursive on a fuel bound (each
step divides by ten, so `n + 1` units always suffice). -/
def natDecCore : Nat → Nat → String
  | 0, _ => ""
  | fuel + 1, n =>
    if n < 10 then String.mk [digitChar n]
    else natDecCore fuel (n / 10) ++ String.mk [digitChar (n % 10)]

/-- Decimal rendering of a natural number. -/
def natDecStr (n : Nat) : String := natDecCore (n + 1) n

/-- The JavaScript `String(n)` conversion for (integer) numbers. -/
def intToString (i : Int) : String :=
  if i < 0 then "-" ++ natDecStr i.natAbs else natDecStr i.toNat

/-- Lower-case hexadecimal digit characters, as `JSON.stringify` emits in
`\u00XX` escapes. -/
def hexDigitChar (d : Nat) : Char :=
  if d < 10 then digitChar d
  else if d = 10 then 'a' else if d = 11 then 'b' else if d = 12 then 'c'
  else if d = 13 then 'd' else if d = 14 then 'e' else 'f'

/-- Four-digit hexadecimal rendering used in `\u00XX` escapes. -/
def hex4 (n : Nat) : String :=
  String.mk [hexDigitChar (n / 4096 % 16), hexDigitChar (n / 256 % 16),
    hexDigitChar (n / 16 % 16), hexDigitChar (n % 16)]

/-- Escaping of one character inside a JSON string literal, following
`JSON.stringify` for scalar values. -/
def jsonEscapeChar (c : Char) : String :=
  if c == '"' then "\\\""
  else if c == '\\' then "\\\\"
  else if c == '\n' then "\\n"
  else if c == '\t' then "\\t"
  else if c == '\r' then "\\r"
  else if c == '\x08' then "\\b"
  else if c == '\x0c' then "\\f"
  else if c.toNat < 32 then "\\u" ++ hex4 c.toNat
  else String.singleton c

/-- The `JSON.stringify(expr)` conversion for string scalars (line 93). -/
def jsonQuote (s : String) : String :=
  "\"" ++ String.join (s.data.map jsonEscapeChar) ++ "\""

/-- Index-keyed fields of an array, as `Object.keys` sees it (keys are the
decimal index strings). -/
def indexFieldsFrom : Nat → List JsVal → List (String × JsVal)
  | _, [] => []
  | i, x :: r => (natDecStr i, x) :: indexFieldsFrom (i + 1) r

/-- Own enumerable fields (`Object.keys` plus value access) of a value, as
`printObject` enumerates them.  `none` models the `TypeError` that
`Object.keys(null)` / `Object.keys(undefined)` throws.  A string primitive
would really enumerate index-keyed characters; it is conservatively modelled
as a failure here and no theorem below depends on it. -/
def objFields : JsVal → Option (List (String × JsVal))
  | .vobj fs => some fs
  | .varr xs => some (indexFieldsFrom 0 xs)
  | .vexpr r => some [("raw", r)]
  | .vvalue v _ => some [("value", v)]
  | .vnum _ => some []
  | .vbool _ => some []
  | .vnull => none
  | .vundefined => none
  | .vstr _ => none

theorem sizeFields_indexFieldsFrom (xs : List JsVal) :
    ∀ i, JsVal.sizeFields (indexFieldsFrom i xs) = JsVal.sizeList xs := by
  induction xs with
  | nil => intro i; simp [indexFieldsFrom, JsVal.sizeList, JsVal.sizeFields]
  | cons x r ih =>
    intro i
    simp [indexFieldsFrom, JsVal.sizeList, JsVal.sizeFields, ih]

theorem objFields_sizeFields_le (v : JsVal) (fs : List (String × JsVal))
    (h : objFields v = some fs) : JsVal.sizeFields fs ≤ v.size := by
  cases v <;> simp only [objFields] at h <;> try cases h
  all_goals simp [JsVal.size, JsVal.sizeFields, sizeFields_indexFieldsFrom]
  all_goals omega

/-- The own keys a call-branch record exposes to `Object.keys`
(lines 174, 191): a plain record's fields, `['raw']` for an `Expr` wrapper,
`['value']` for a value-carrying `Expr` subclass. -/
def callFields : JsVal → List (String × JsVal)
  | .vobj fs => fs
  | .vexpr r => [("raw", r)]
  | .vvalue v _ => [("value", v)]
  | _ => []

/-- Result of one rendering task: the element tasks and the whole-expression
tasks produce a string, the call-argument task produces the `args` array of
rendered argument strings (reversed later for the reversal set). -/
inductive Out : Type where
  | str (s : String)
  | list (xs : List String)
deriving DecidableEq

/-- The renderer's mutually recursive pieces, defunctionalized into one
well-founded recursion.  `tExpr` is a full `exprToString` call; `tCore` is
its body after the one `Expr` unwrap; `tCall` is the generic call branch;
`tArgs` is `keys.map(...)` inside the call branch; `tObj` is `printObject`;
`tObjElems` its `keys.map(...).join('')`; `tArrElems` the element loop of
`printArray(array, exprToString)`; `tLetArr` / `tLetElems` are
`printArray(arg, printObject)` used for `Let` binding payloads. -/
inductive Task : Type where
  | tExpr (e : JsVal)
  | tCore (e : JsVal)
  | tCall (e : JsVal)
  | tArgs (fn : String) (fs : List (String × JsVal)) (i len : Nat)
  | tObj (v : JsVal)
  | tObjElems (fs : List (String × JsVal)) (i len : Nat)
  | tArrElems (xs : List JsVal) (i len : Nat)
  | tLetArr (xs : List JsVal)
  | tLetElems (xs : List JsVal) (i len : Nat)

/-- Choice of sub-rendering for one call argument (lines 194-199): the
payload under the `let` key of a `Let` call prints as an object literal
(or an array of object literals); every other argument recurses as an
ordinary expression. -/
def letArgTask (fn key : String) (arg : JsVal) : Task :=
  if fn == "Let" && key == "let" then
    match arg with
    | .varr ys => .tLetArr ys
    | .vnull => .tObj .vnull
    | .vundefined => .tObj .vundefined
    | .vbool b => .tObj (.vbool b)
    | .vnum n => .tObj (.vnum n)
    | .vstr s => .tObj (.vstr s)
    | .vobj gs => .tObj (.vobj gs)
    | .vexpr r => .tObj (.vexpr r)
    | .vvalue v d => .tObj (.vvalue v d)
  else .tExpr arg

/-- Fuel bound: lexicographic (value size, phase), encoded as one natural
number.  `run` consumes one unit of fuel per internal step, and a step's
task always has a strictly smaller measure, so `Task.measure t` units of
fuel always suffice (theorem `run_adequate` below). -/
def Task.measure : Task → Nat
  | .tExpr e => 6 * e.size + 5
  | .tCore e => 6 * e.size + 4
  | .tCall e => 6 * e.size + 3
  | .tArgs _ fs _ _ => 6 * JsVal.sizeFields fs + 2
  | .tObj v => 6 * v.size + 2
  | .tObjElems fs _ _ => 6 * JsVal.sizeFields fs + 1
  | .tArrElems xs _ _ => 6 * JsVal.sizeList xs + 1
  | .tLetArr xs => 6 * (1 + JsVal.sizeList xs) + 2
  | .tLetElems xs _ _ => 6 * JsVal.sizeList xs + 1

/-- The renderer, structurally recursive on a fuel parameter so that the
kernel can evaluate it.  The outer `none` means the fuel ran out (never the
case when the fuel is at least `Task.measure t`, by `run_adequate`); an
inner `none` models a thrown `TypeError` propagating out with the mutable
state exactly as the throw left it (push/restore steps skipped by the
exception are faithfully skipped). -/
def run : Nat → Task → POptions → PState → Option (Option Out × PState)
  | 0, _, _, _ => none
  | fuel + 1, t, opts, st =>
    match t with
    | .tExpr e =>
      -- lines 80-85: an Expr with a `value` property prints via its own
      -- toString; a plain Expr wrapper is unwrapped once.
      match e with
      | .vvalue _ d => some (some (.str d), st)
      | .vexpr raw => run fuel (.tCore raw) opts st
      | .vnull => run fuel (.tCore .vnull) opts st
      | .vundefined => run fuel (.tCore .vundefined) opts st
      | .vbool b => run fuel (.tCore (.vbool b)) opts st
      | .vnum n => run fuel (.tCore (.vnum n)) opts st
      | .vstr s => run fuel (.tCore (.vstr s)) opts st
      | .varr xs => run fuel (.tCore (.varr xs)) opts st
      | .vobj fs => run fuel (.tCore (.vobj fs)) opts st
    | .tCore e =>
      match e with
      | .vnull => some (some (.str "null"), st)
      | .vundefined => some (some (.str "undefined"), st)
      | .vstr s => some (some (.str (jsonQuote s)), st)
      | .vbool b => some (some (.str (if b then "true" else "false")), st)
      | .vnum n => some (some (.str (intToString n)), st)
      | .varr xs =>
        -- lines 133-143: decide compactness, print, restore the flag.
        let wasCompact := st.compact
        let st1 := if wasCompact then st else { st with compact := xs.all isCompact }
        if xs.isEmpty then some (some (.str "[]"), st)
        else
          let head := eol st1 "["
          let st2 := { st1 with printDepth := st1.printDepth + 1 }
          match run fuel (.tArrElems xs 0 xs.length) opts st2 with
          | none => none
          | some (none, st3) => some (none, st3)
          | some (some (.list _), st3) => some (none, st3)
          | some (some (.str body), st3) =>
            let st4 := { st3 with printDepth := st3.printDepth - 1 }
            some (some (.str (head ++ body ++ indent st4 "]")),
              { st4 with compact := wasCompact })
      | .vobj fs =>
        -- line 170: `'object' in expr` selects the object-literal branch.
        match lookupKey "object" fs with
        | some v => run fuel (.tObj v) opts st
        | none => run fuel (.tCall (.vobj fs)) opts st
      | .vexpr r => run fuel (.tCall (.vexpr r)) opts st
      | .vvalue v d => run fuel (.tCall (.vvalue v d)) opts st
    | .tCall e =>
      -- lines 174-214: the generic call branch; `Object.keys` of the three
      -- record-like shapes that can reach it.
      let fields := callFields e
      match fields with
      | [] => some (none, st)   -- keys[0] is undefined: `keys[0].split` throws
      | (k0, _) :: _ =>
        let fn := resolveName k0
        let wasCompact := st.compact
        let st1 :=
          if wasCompact then st
          else { st with compact := opts.compact || fields.all (fun p => isCompact p.2) }
        let st2 := { st1 with printDepth := st1.printDepth + 1 }
        match run fuel (.tArgs fn fields 0 fields.length) opts st2 with
        | none => none
        | some (none, st3) => some (none, st3)
        | some (some (.str _), st3) => some (none, st3)
        | some (some (.list args), st3) =>
          let st4 := { st3 with printDepth := st3.printDepth - 1 }
          let args2 := if shouldReverseArgs fn then args.reverse else args
          let out := eol st4 (fn ++ "(") ++ String.join args2 ++ indent st4 ")"
          some (some (.str out), { st4 with compact := wasCompact })
    | .tArgs fn fs i len =>
      match fs with
      | [] => some (some (.list []), st)
      | (key, arg) :: rest =>
        let stP := { st with keyPath := st.keyPath ++ [PathElem.str key] }
        match run fuel (letArgTask fn key arg) opts stP with
        | none => none
        | some (none, st2) => some (none, st2)
        | some (some (.list _), st2) => some (none, st2)
        | some (some (.str v0), st2) =>
          let v1 := applyMap opts v0 st2.keyPath
          let st3 := { st2 with keyPath := st2.keyPath.dropLast }
          let piece :=
            indent st3 v1 ++ (if st3.compact && i == len - 1 then "" else eol st3 ",")
          match run fuel (.tArgs fn rest (i + 1) len) opts st3 with
          | none => none
          | some (none, st4) => some (none, st4)
          | some (some (.str _), st4) => some (none, st4)
          | some (some (.list pieces), st4) => some (some (.list (piece :: pieces)), st4)
    | .tObj v =>
      -- lines 145-168: printObject.
      match objFields v with
      | none => some (none, st)
      | some [] => some (some (.str "\x7b\x7d"), st)
      | some (f0 :: fs1) =>
        let fs := f0 :: fs1
        let head := eol st "\x7b"
        let st1 := { st with printDepth := st.printDepth + 1 }
        match run fuel (.tObjElems fs 0 fs.length) opts st1 with
        | none => none
        | some (none, st2) => some (none, st2)
        | some (some (.list _), st2) => some (none, st2)
        | some (some (.str body), st2) =>
          let st3 := { st2 with printDepth := st2.printDepth - 1 }
          some (some (.str (head ++ body ++ indent st3 "\x7d")), st3)
    | .tObjElems fs i len =>
      match fs with
      | [] => some (some (.str ""), st)
      | (key, w) :: rest =>
        let stP := { st with keyPath := st.keyPath ++ [PathElem.str key] }
        match run fuel (.tExpr w) opts stP with
        | none => none
        | some (none, st2) => some (none, st2)
        | some (some (.list _), st2) => some (none, st2)
        | some (some (.str v0), st2) =>
          let v1 := applyMap opts v0 st2.keyPath
          let st3 := { st2 with keyPath := st2.keyPath.dropLast }
          let piece :=
            indent st3 (key ++ ":" ++ (if st3.compact then "" else " ") ++ v1) ++
              (if st3.compact && i == len - 1 then "" else eol st3 ",")
          match run fuel (.tObjElems rest (i + 1) len) opts st3 with
          | none => none
          | some (none, st4) => some (none, st4)
          | some (some (.list _), st4) => some (none, st4)
          | some (some (.str restStr), st4) => some (some (.str (piece ++ restStr)), st4)
    | .tArrElems xs i len =>
      match xs with
      | [] => some (some (.str ""), st)
      | x :: rest =>
        let stP := { st with keyPath := st.keyPath ++ [PathElem.idx i] }
        match run fuel (.tExpr x) opts stP with
        | none => none
        | some (none, st2) => some (none, st2)
        | some (some (.list _), st2) => some (none, st2)
        | some (some (.str v0), st2) =>
          let v1 := applyMap opts v0 st2.keyPath
          let st3 := { st2 with keyPath := st2.keyPath.dropLast }
          let piece :=
            indent st3 v1 ++ (if st3.compact && i == len - 1 then "" else eol st3 ",")
          match run fuel (.tArrElems rest (i + 1) len) opts st3 with
          | none => none
          | some (none, st4) => some (none, st4)
          | some (some (.list _), st4) => some (none, st4)
          | some (some (.str restStr), st4) => some (some (.str (piece ++ restStr)), st4)
    | .tLetArr ys =>
      -- printArray(arg, printObject): no compactness decision of its own.
      if ys.isEmpty then some (some (.str "[]"), st)
      else
        let head := eol st "["
        let st1 := { st with printDepth := st.printDepth + 1 }
        match run fuel (.tLetElems ys 0 ys.length) opts st1 with
        | none => none
        | some (none, st2) => some (none, st2)
        | some (some (.list _), st2) => some (none, st2)
        | some (some (.str body), st2) =>
          let st3 := { st2 with printDepth := st2.printDepth - 1 }
          some (some (.str (head ++ body ++ indent st3 "]")), st3)
    | .tLetElems ys i len =>
      match ys with
      | [] => some (some (.str ""), st)
      | y :: rest =>
        let stP := { st with keyPath := st.keyPath ++ [PathElem.idx i] }
        match run fuel (.tObj y) opts stP with
        | none => none
        | some (none, st2) => some (none, st2)
        | some (some (.list _), st2) => some (none, st2)
        | some (some (.str v0), st2) =>
          let v1 := applyMap opts v0 st2.keyPath
          let st3 := { st2 with keyPath := st2.keyPath.dropLast }
          let piece :=
            indent st3 v1 ++ (if st3.compact && i == len - 1 then "" else eol st3 ",")
          match run fuel (.tLetElems rest (i + 1) len) opts st3 with
          | none => none
          | some (none, st4) => some (none, st4)
          | some (some (.list _), st4) => some (none, st4)
          | some (some (.str restStr), st4) => some (some (.str (piece ++ restStr)), st4)

/-- Push of one path element (`keyPath.push(key)`). -/
def pushKey (st : PState) (k : String) : PState :=
  { st with keyPath := st.keyPath ++ [PathElem.str k] }

/-- Push of a numeric index (`keyPath.push(i)`). -/
def pushIdx (st : PState) (i : Nat) : PState :=
  { st with keyPath := st.keyPath ++ [PathElem.idx i] }

/-- Pop of the key path (`keyPath.pop()`). -/
def popKey (st : PState) : PState := { st with keyPath := st.keyPath.dropLast }

/-- Depth increment around a composite's children (`printDepth += 1`). -/
def incDepth (st : PState) : PState := { st with printDepth := st.printDepth + 1 }

/-- Depth decrement after a composite's children (`printDepth -= 1`). -/
def decDepth (st : PState) : PState := { st with printDepth := st.printDepth - 1 }

/-- Overwrite of the compactness flag. -/
def setCompact (st : PState) (b : Bool) : PState := { st with compact := b }

/-- The compactness decision of the array branch (lines 134-137): inherit a
forced flag, else compact iff every element is `isCompact`. -/
def arrDecide (st : PState) (xs : List JsVal) : PState :=
  if st.compact then st else setCompact st (xs.all isCompact)

/-- The compactness decision of the call branch (lines 184-187): inherit a
forced flag, else compact iff the option forces it or every value is
`isCompact`. -/
def callDecide (st : PState) (opts : POptions) (fs : List (String × JsVal)) : PState :=
  if st.compact then st
  else setCompact st (opts.compact || fs.all (fun p => isCompact p.2))

/-- Projection of a task's result to the printed string: the out-of-fuel
case (impossible at fuel `Task.measure t`, by `run_adequate`) and the
`TypeError` case both project to `none`. -/
def runStr (t : Task) (opts : POptions) (st : PState) : Option String × PState :=
  match run (Task.measure t) t opts st with
  | some (some (.str s), st2) => (some s, st2)
  | some (some (.list _), st2) => (none, st2)
  | some (none, st2) => (none, st2)
  | none => (none, st)

/-- The entry point `Expr.toString = exprToString` (line 217): renders an
expression from a given state, returning the string and the final state;
`none` models a thrown `TypeError`. -/
def exprToString (e : JsVal) (opts : POptions) (st : PState) : Option String × PState :=
  runStr (.tExpr e) opts st

/-- The source's inner `printObject` (lines 145-168), as a function of its
own: used directly by the `'object'` branch and by `Let` binding payloads. -/
def printObject (v : JsVal) (opts : POptions) (st : PState) : Option String × PState :=
  runStr (.tObj v) opts st

/-- The call `printArray(arg, printObject)` (line 197): an array rendered
with every element printed as an object literal. -/
def printArrayObj (ys : List JsVal) (opts : POptions) (st : PState) :
    Option String × PState :=
  runStr (.tLetArr ys) opts st

/-- The `Expr` wrapper class (lines 10-12): `new Expr(obj)` stores `obj`
in `this.raw`. -/
structure Expr where
  raw : JsVal

/-- The method `Expr.prototype.toJSON` (lines 14-16): returns `this.raw`. -/
def Expr.toJSON (e : Expr) : JsVal := e.raw

/-- Modelled from the spec: the spec's notion of a "simple" immediate child
value for the compactness decision — "a leaf scalar, not a nested composite
(sequence or record) or Call" (§4.2); an OpaqueScalar is a leaf scalar (§3),
and a wrapper is as simple as the value it wraps.  Stated for comparison
with the source's `isCompact`. -/
def specSimple : JsVal → Bool
  | .vnull => true
  | .vundefined => true
  | .vbool _ => true
  | .vnum _ => true
  | .vstr _ => true
  | .vvalue _ _ => true
  | .varr _ => false
  | .vobj _ => false
  | .vexpr r => specSimple r

/-- A character that is neither a line break nor the indentation marker
glyph. -/
def cleanChar (c : Char) : Bool := !(c == '\n' || c == '・')

/-- A string free of line breaks and of the indentation marker glyph. -/
def cleanStr (s : String) : Bool := s.data.all cleanChar

mutual

/-- A tree whose embedded strings (string scalars, record keys, opaque
display strings) are all clean: such a tree cannot smuggle a line break or
an indentation marker into single-line output. -/
def cleanVal : JsVal → Bool
  | .vstr s => cleanStr s
  | .vvalue v d => cleanStr d && cleanVal v
  | .varr xs => cleanList xs
  | .vobj fs => cleanFields fs
  | .vexpr r => cleanVal r
  | _ => true

/-- Cleanliness of every element of a list. -/
def cleanList : List JsVal → Bool
  | [] => true
  | x :: r => cleanVal x && cleanList r

/-- Cleanliness of every key and value of a field list. -/
def cleanFields : List (String × JsVal) → Bool
  | [] => true
  | (k, v) :: r => cleanStr k && cleanVal v && cleanFields r

end

mutual

/-- Sufficient condition for rendering to complete without a thrown
`TypeError`: mirrors the renderer's branching.  An `Expr` with a `value`
property prints its own display string; a plain wrapper defers to its
payload. -/
def renderOk : JsVal → Bool
  | .vvalue _ _ => true
  | .vexpr raw => coreOk raw
  | .vnull => coreOk .vnull
  | .vundefined => coreOk .vundefined
  | .vbool b => coreOk (.vbool b)
  | .vnum n => coreOk (.vnum n)
  | .vstr s => coreOk (.vstr s)
  | .varr xs => coreOk (.varr xs)
  | .vobj fs => coreOk (.vobj fs)
termination_by e => 5 * e.size + 4
decreasing_by
  all_goals simp only [JsVal.size, JsVal.sizeList, JsVal.sizeFields]
  all_goals omega

/-- Success condition for the unwrapped body: scalars always print; an array
needs every element printable; a record needs either an `object` field whose
value survives `printObject`, or at least one key (an empty record makes
`keys[0].split` throw) with every argument printable. -/
def coreOk : JsVal → Bool
  | .vnull => true
  | .vundefined => true
  | .vbool _ => true
  | .vnum _ => true
  | .vstr _ => true
  | .varr xs => arrOk xs
  | .vobj fs =>
    match h : lookupKey "object" fs with
    | some v => objOk v
    | none =>
      match fs with
      | [] => false
      | (k0, p0) :: rest0 => argsOk (resolveName k0) ((k0, p0) :: rest0)
  | .vexpr r => argsOk (resolveName "raw") [("raw", r)]
  | .vvalue v _ => argsOk (resolveName "value") [("value", v)]
termination_by e => 5 * e.size + 3
decreasing_by
  all_goals simp only [JsVal.size, JsVal.sizeList, JsVal.sizeFields]
  all_goals first
    | omega
    | (have hsz := lookupKey_size_le "object" fs v h; omega)

/-- Success condition for every call argument, distinguishing the `Let`
binding payload. -/
def argsOk (fn : String) : List (String × JsVal) → Bool
  | [] => true
  | (key, arg) :: rest =>
    (if fn == "Let" && key == "let" then letOk arg else renderOk arg) && argsOk fn rest
termination_by fs => 5 * JsVal.sizeFields fs + 1
decreasing_by
  all_goals simp only [JsVal.size, JsVal.sizeList, JsVal.sizeFields]
  all_goals first
    | omega
    | (have hsz := JsVal.size_pos arg; omega)

/-- Success condition for a `Let` binding payload: an array of
`printObject`-printable values, or one such value. -/
def letOk : JsVal → Bool
  | .varr ys => arrObjOk ys
  | .vnull => objOk .vnull
  | .vundefined => objOk .vundefined
  | .vbool b => objOk (.vbool b)
  | .vnum n => objOk (.vnum n)
  | .vstr s => objOk (.vstr s)
  | .vobj gs => objOk (.vobj gs)
  | .vexpr r => objOk (.vexpr r)
  | .vvalue v d => objOk (.vvalue v d)
termination_by v => 5 * v.size + 2
decreasing_by
  all_goals simp only [JsVal.size, JsVal.sizeList, JsVal.sizeFields]
  all_goals omega

/-- Success condition for `printObject`: key enumeration must not throw and
every field value must be printable. -/
def objOk (v : JsVal) : Bool :=
  match ho : objFields v with
  | none => false
  | some fs => objElemsOk fs
termination_by 5 * v.size + 1
decreasing_by
  all_goals try simp only [JsVal.size, JsVal.sizeList, JsVal.sizeFields]
  all_goals first
    | (have hsz := objFields_sizeFields_le v _ ho; omega)
    | (rename_i fs ho
       have := objFields_sizeFields_le v fs ho
       omega)

/-- Success condition for the field loop of `printObject`. -/
def objElemsOk : List (String × JsVal) → Bool
  | [] => true
  | (_, w) :: rest => renderOk w && objElemsOk rest
termination_by fs => 5 * JsVal.sizeFields fs
decreasing_by
  all_goals simp only [JsVal.size, JsVal.sizeList, JsVal.sizeFields]
  all_goals first
    | omega
    | (have hsz := JsVal.size_pos w; omega)

/-- Success condition for the element loop of an array. -/
def arrOk : List JsVal → Bool
  | [] => true
  | x :: rest => renderOk x && arrOk rest
termination_by xs => 5 * JsVal.sizeList xs + 2
decreasing_by
  all_goals simp only [JsVal.size, JsVal.sizeList, JsVal.sizeFields]
  all_goals first
    | omega
    | (have hsz := JsVal.size_pos x; omega)

/-- Success condition for the element loop of `printArray(arg, printObject)`. -/
def arrObjOk : List JsVal → Bool
  | [] => true
  | y :: rest => objOk y && arrObjOk rest
termination_by ys => 5 * JsVal.sizeList ys
decreasing_by
  all_goals simp only [JsVal.size, JsVal.sizeList, JsVal.sizeFields]
  all_goals first
    | omega
    | (have hsz := JsVal.size_pos y; omega)

end

/-- Success condition of one rendering task, tying the `renderOk` family to
the defunctionalized `run`. -/
def taskOk : Task → Bool
  | .tExpr e => renderOk e
  | .tCore e => coreOk e
  | .tCall e =>
    match callFields e with
    | [] => false
    | (k0, _) :: _ => argsOk (resolveName k0) (callFields e)
  | .tArgs fn fs _ _ => argsOk fn fs
  | .tObj v => objOk v
  | .tObjElems fs _ _ => objElemsOk fs
  | .tArrElems xs _ _ => arrOk xs
  | .tLetArr ys => arrObjOk ys
  | .tLetElems ys _ _ => arrObjOk ys


theorem pushKey_compact (st : PState) (k : String) : (pushKey st k).compact = st.compact := rfl

theorem pushIdx_compact (st : PState) (i : Nat) : (pushIdx st i).compact = st.compact := rfl

theorem popKey_compact (st : PState) : (popKey st).compact = st.compact := rfl

theorem incDepth_compact (st : PState) : (incDepth st).compact = st.compact := rfl

theorem decDepth_compact (st : PState) : (decDepth st).compact = st.compact := rfl

theorem setCompact_compact (st : PState) (b : Bool) : (setCompact st b).compact = b := rfl

/-- Unfolding lemma: fuel exhaustion. -/
theorem run_zero (t : Task) (o : POptions) (st : PState) : run 0 t o st = none := rfl

/-- Unfolding lemma: an `Expr` with a `value` property prints its display. -/
theorem run_expr_value (n : Nat) (v : JsVal) (d : String) (o : POptions) (st : PState) :
    run (n + 1) (.tExpr (.vvalue v d)) o st = some (some (.str d), st) := rfl

/-- Unfolding lemma: a plain `Expr` wrapper is unwrapped once. -/
theorem run_expr_wrap (n : Nat) (r : JsVal) (o : POptions) (st : PState) :
    run (n + 1) (.tExpr (.vexpr r)) o st = run n (.tCore r) o st := rfl

theorem run_expr_null (n : Nat) (o : POptions) (st : PState) :
    run (n + 1) (.tExpr .vnull) o st = run n (.tCore .vnull) o st := rfl

theorem run_expr_undefined (n : Nat) (o : POptions) (st : PState) :
    run (n + 1) (.tExpr .vundefined) o st = run n (.tCore .vundefined) o st := rfl

theorem run_expr_bool (n : Nat) (b : Bool) (o : POptions) (st : PState) :
    run (n + 1) (.tExpr (.vbool b)) o st = run n (.tCore (.vbool b)) o st := rfl

theorem run_expr_num (n : Nat) (m : Int) (o : POptions) (st : PState) :
    run (n + 1) (.tExpr (.vnum m)) o st = run n (.tCore (.vnum m)) o st := rfl

theorem run_expr_str (n : Nat) (s : String) (o : POptions) (st : PState) :
    run (n + 1) (.tExpr (.vstr s)) o st = run n (.tCore (.vstr s)) o st := rfl

theorem run_expr_arr (n : Nat) (xs : List JsVal) (o : POptions) (st : PState) :
    run (n + 1) (.tExpr (.varr xs)) o st = run n (.tCore (.varr xs)) o st := rfl

theorem run_expr_obj (n : Nat) (fs : List (String × JsVal)) (o : POptions) (st : PState) :
    run (n + 1) (.tExpr (.vobj fs)) o st = run n (.tCore (.vobj fs)) o st := rfl

theorem run_core_null (n : Nat) (o : POptions) (st : PState) :
    run (n + 1) (.tCore .vnull) o st = some (some (.str "null"), st) := rfl

theorem run_core_undefined (n : Nat) (o : POptions) (st : PState) :
    run (n + 1) (.tCore .vundefined) o st = some (some (.str "undefined"), st) := rfl

theorem run_core_str (n : Nat) (s : String) (o : POptions) (st : PState) :
    run (n + 1) (.tCore (.vstr s)) o st = some (some (.str (jsonQuote s)), st) := rfl

theorem run_core_bool (n : Nat) (b : Bool) (o : POptions) (st : PState) :
    run (n + 1) (.tCore (.vbool b)) o st =
      some (some (.str (if b then "true" else "false")), st) := rfl

theorem run_core_num (n : Nat) (m : Int) (o : POptions) (st : PState) :
    run (n + 1) (.tCore (.vnum m)) o st = some (some (.str (intToString m)), st) := rfl

/-- Unfolding lemma: an empty array prints `[]` with the state untouched
(the compactness decision is made and immediately restored). -/
theorem run_core_arr_nil (n : Nat) (o : POptions) (st : PState) :
    run (n + 1) (.tCore (.varr [])) o st = some (some (.str "[]"), st) := rfl

/-- Unfolding lemma: the array branch decides compactness over its immediate
elements before rendering them, renders them at depth + 1, and restores the
prior flag on success. -/
theorem run_core_arr_cons (n : Nat) (x : JsVal) (rest : List JsVal) (o : POptions)
    (st : PState) :
    run (n + 1) (.tCore (.varr (x :: rest))) o st =
      (match run n (.tArrElems (x :: rest) 0 (x :: rest).length) o
          (incDepth (arrDecide st (x :: rest))) with
      | none => none
      | some (none, st3) => some (none, st3)
      | some (some (.list l), st3) => some (none, st3)
      | some (some (.str body), st3) =>
        some (some (.str (eol (arrDecide st (x :: rest)) "[" ++ body ++
            indent (decDepth st3) "]")),
          setCompact (decDepth st3) st.compact)) := rfl

/-- Unfolding lemma: `'object' in expr` selects `printObject`, otherwise the
call branch runs. -/
theorem run_core_obj (n : Nat) (fs : List (String × JsVal)) (o : POptions) (st : PState) :
    run (n + 1) (.tCore (.vobj fs)) o st =
      (match lookupKey "object" fs with
      | some v => run n (.tObj v) o st
      | none => run n (.tCall (.vobj fs)) o st) := rfl

theorem run_core_wrap (n : Nat) (r : JsVal) (o : POptions) (st : PState) :
    run (n + 1) (.tCore (.vexpr r)) o st = run n (.tCall (.vexpr r)) o st := rfl

theorem run_core_value (n : Nat) (v : JsVal) (d : String) (o : POptions) (st : PState) :
    run (n + 1) (.tCore (.vvalue v d)) o st = run n (.tCall (.vvalue v d)) o st := rfl

/-- Unfolding lemma: the call branch throws on a record with no own keys,
else resolves a display name from the first key, decides compactness,
renders the arguments at depth + 1, reverses them for the reversal set,
and restores the prior flag on success. -/
theorem run_call (n : Nat) (e : JsVal) (o : POptions) (st : PState) :
    run (n + 1) (.tCall e) o st =
      (match callFields e with
      | [] => some (none, st)
      | (k0, _) :: _ =>
        match run n (.tArgs (resolveName k0) (callFields e) 0 (callFields e).length) o
            (incDepth (callDecide st o (callFields e))) with
        | none => none
        | some (none, st3) => some (none, st3)
        | some (some (.str s), st3) => some (none, st3)
        | some (some (.list args), st3) =>
          some (some (.str (eol (decDepth st3) (resolveName k0 ++ "(") ++
              String.join (if shouldReverseArgs (resolveName k0) then args.reverse
                else args) ++
              indent (decDepth st3) ")")),
            setCompact (decDepth st3) st.compact)) := rfl

theorem run_args_nil (n : Nat) (fn : String) (i len : Nat) (o : POptions) (st : PState) :
    run (n + 1) (.tArgs fn [] i len) o st = some (some (.list []), st) := rfl

/-- Unfolding lemma: one call argument renders under the pushed key (through
the `Let` payload dispatch), goes through the map hook, and contributes its
piece with the compact-aware separator. -/
theorem run_args_cons (n : Nat) (fn key : String) (arg : JsVal)
    (rest : List (String × JsVal)) (i len : Nat) (o : POptions) (st : PState) :
    run (n + 1) (.tArgs fn ((key, arg) :: rest) i len) o st =
      (match run n (letArgTask fn key arg) o (pushKey st key) with
      | none => none
      | some (none, st2) => some (none, st2)
      | some (some (.list l), st2) => some (none, st2)
      | some (some (.str v0), st2) =>
        match run n (.tArgs fn rest (i + 1) len) o (popKey st2) with
        | none => none
        | some (none, st4) => some (none, st4)
        | some (some (.str s), st4) => some (none, st4)
        | some (some (.list pieces), st4) =>
          some (some (.list ((indent (popKey st2) (applyMap o v0 st2.keyPath) ++
            (if st2.compact && i == len - 1 then "" else eol (popKey st2) ","))
            :: pieces)), st4)) := rfl

/-- Unfolding lemma: `printObject` throws where `Object.keys` throws, prints
an empty record as braces, and otherwise renders its fields at depth + 1. -/
theorem run_obj (n : Nat) (v : JsVal) (o : POptions) (st : PState) :
    run (n + 1) (.tObj v) o st =
      (match objFields v with
      | none => some (none, st)
      | some [] => some (some (.str "\x7b\x7d"), st)
      | some (f0 :: fs1) =>
        match run n (.tObjElems (f0 :: fs1) 0 (f0 :: fs1).length) o (incDepth st) with
        | none => none
        | some (none, st2) => some (none, st2)
        | some (some (.list l), st2) => some (none, st2)
        | some (some (.str body), st2) =>
          some (some (.str (eol st "\x7b" ++ body ++ indent (decDepth st2) "\x7d")),
            decDepth st2)) := rfl

theorem run_objElems_nil (n i len : Nat) (o : POptions) (st : PState) :
    run (n + 1) (.tObjElems [] i len) o st = some (some (.str ""), st) := rfl

theorem run_objElems_cons (n : Nat) (key : String) (w : JsVal)
    (rest : List (String × JsVal)) (i len : Nat) (o : POptions) (st : PState) :
    run (n + 1) (.tObjElems ((key, w) :: rest) i len) o st =
      (match run n (.tExpr w) o (pushKey st key) with
      | none => none
      | some (none, st2) => some (none, st2)
      | some (some (.list l), st2) => some (none, st2)
      | some (some (.str v0), st2) =>
        match run n (.tObjElems rest (i + 1) len) o (popKey st2) with
        | none => none
        | some (none, st4) => some (none, st4)
        | some (some (.list l), st4) => some (none, st4)
        | some (some (.str restStr), st4) =>
          some (some (.str ((indent (popKey st2)
              (key ++ ":" ++ (if st2.compact then "" else " ") ++
                applyMap o v0 st2.keyPath) ++
            (if st2.compact && i == len - 1 then "" else eol (popKey st2) ","))
            ++ restStr)), st4)) := rfl

theorem run_arrElems_nil (n i len : Nat) (o : POptions) (st : PState) :
    run (n + 1) (.tArrElems [] i len) o st = some (some (.str ""), st) := rfl

theorem run_arrElems_cons (n : Nat) (x : JsVal) (rest : List JsVal) (i len : Nat)
    (o : POptions) (st : PState) :
    run (n + 1) (.tArrElems (x :: rest) i len) o st =
      (match run n (.tExpr x) o (pushIdx st i) with
      | none => none
      | some (none, st2) => some (none, st2)
      | some (some (.list l), st2) => some (none, st2)
      | some (some (.str v0), st2) =>
        match run n (.tArrElems rest (i + 1) len) o (popKey st2) with
        | none => none
        | some (none, st4) => some (none, st4)
        | some (some (.list l), st4) => some (none, st4)
        | some (some (.str restStr), st4) =>
          some (some (.str ((indent (popKey st2) (applyMap o v0 st2.keyPath) ++
            (if st2.compact && i == len - 1 then "" else eol (popKey st2) ","))
            ++ restStr)), st4)) := rfl

theorem run_letArr_nil (n : Nat) (o : POptions) (st : PState) :
    run (n + 1) (.tLetArr []) o st = some (some (.str "[]"), st) := rfl

theorem run_letArr_cons (n : Nat) (y : JsVal) (rest : List JsVal) (o : POptions)
    (st : PState) :
    run (n + 1) (.tLetArr (y :: rest)) o st =
      (match run n (.tLetElems (y :: rest) 0 (y :: rest).length) o (incDepth st) with
      | none => none
      | some (none, st2) => some (none, st2)
      | some (some (.list l), st2) => some (none, st2)
      | some (some (.str body), st2) =>
        some (some (.str (eol st "[" ++ body ++ indent (decDepth st2) "]")),
          decDepth st2)) := rfl

theorem run_letElems_nil (n i len : Nat) (o : POptions) (st : PState) :
    run (n + 1) (.tLetElems [] i len) o st = some (some (.str ""), st) := rfl

theorem run_letElems_cons (n : Nat) (y : JsVal) (rest : List JsVal) (i len : Nat)
    (o : POptions) (st : PState) :
    run (n + 1) (.tLetElems (y :: rest) i len) o st =
      (match run n (.tObj y) o (pushIdx st i) with
      | none => none
      | some (none, st2) => some (none, st2)
      | some (some (.list l), st2) => some (none, st2)
      | some (some (.str v0), st2) =>
        match run n (.tLetElems rest (i + 1) len) o (popKey st2) with
        | none => none
        | some (none, st4) => some (none, st4)
        | some (some (.list l), st4) => some (none, st4)
        | some (some (.str restStr), st4) =>
          some (some (.str ((indent (popKey st2) (applyMap o v0 st2.keyPath) ++
            (if st2.compact && i == len - 1 then "" else eol (popKey st2) ","))
            ++ restStr)), st4)) := rfl

/-- Fuel monotonicity: a determined result is stable under more fuel. -/
theorem run_mono_succ :
    ∀ fuel t opts st res, run fuel t opts st = some res →
      run (fuel + 1) t opts st = some res := by
  intro fuel
  induction fuel with
  | zero => intro t opts st res h; simp [run] at h
  | succ n ih =>
    intro t opts st res h
    cases t with
    | tExpr e =>
      cases e with
      | vvalue v d => rw [run_expr_value] at h ⊢; exact h
      | vexpr r => rw [run_expr_wrap] at h ⊢; exact ih _ _ _ _ h
      | vnull => rw [run_expr_null] at h ⊢; exact ih _ _ _ _ h
      | vundefined => rw [run_expr_undefined] at h ⊢; exact ih _ _ _ _ h
      | vbool b => rw [run_expr_bool] at h ⊢; exact ih _ _ _ _ h
      | vnum m => rw [run_expr_num] at h ⊢; exact ih _ _ _ _ h
      | vstr s => rw [run_expr_str] at h ⊢; exact ih _ _ _ _ h
      | varr xs => rw [run_expr_arr] at h ⊢; exact ih _ _ _ _ h
      | vobj fs => rw [run_expr_obj] at h ⊢; exact ih _ _ _ _ h
    | tCore e =>
      cases e with
      | vnull => rw [run_core_null] at h ⊢; exact h
      | vundefined => rw [run_core_undefined] at h ⊢; exact h
      | vbool b => rw [run_core_bool] at h ⊢; exact h
      | vnum m => rw [run_core_num] at h ⊢; exact h
      | vstr s => rw [run_core_str] at h ⊢; exact h
      | vexpr r => rw [run_core_wrap] at h ⊢; exact ih _ _ _ _ h
      | vvalue v d => rw [run_core_value] at h ⊢; exact ih _ _ _ _ h
      | vobj fs =>
        rw [run_core_obj] at h ⊢
        rcases hlk : lookupKey "object" fs with _ | v
        all_goals rw [hlk] at h
        all_goals dsimp only at h ⊢
        all_goals exact ih _ _ _ _ h
      | varr xs =>
        cases xs with
        | nil => rw [run_core_arr_nil] at h ⊢; exact h
        | cons x rest =>
          rw [run_core_arr_cons] at h ⊢
          rcases h1 : run n (.tArrElems (x :: rest) 0 (x :: rest).length) opts
              (incDepth (arrDecide st (x :: rest))) with _ | ⟨ro, st3⟩
          · rw [h1] at h; exact absurd h (by simp)
          · rw [h1] at h; rw [ih _ _ _ _ h1]; exact h
    | tCall e =>
      rw [run_call] at h ⊢
      rcases hcf : callFields e with _ | ⟨⟨k0, p0⟩, rest⟩
      · rw [hcf] at h
        dsimp only at h ⊢
        exact h
      · rw [hcf] at h
        dsimp only at h ⊢
        rcases h1 : run n (.tArgs (resolveName k0) ((k0, p0) :: rest) 0
            ((k0, p0) :: rest).length) opts
            (incDepth (callDecide st opts ((k0, p0) :: rest))) with _ | ⟨ro, st3⟩
        · rw [h1] at h; exact absurd h (by simp)
        · rw [h1] at h; rw [ih _ _ _ _ h1]; exact h
    | tArgs fn fs i len =>
      cases fs with
      | nil => rw [run_args_nil] at h ⊢; exact h
      | cons p rest =>
        obtain ⟨key, arg⟩ := p
        rw [run_args_cons] at h ⊢
        rcases h1 : run n (letArgTask fn key arg) opts (pushKey st key) with _ | ⟨ro2, st2⟩
        · rw [h1] at h; exact absurd h (by simp)
        · rw [h1] at h
          rw [ih _ _ _ _ h1]
          rcases ro2 with _ | out
          · exact h
          · rcases out with v0 | l
            · dsimp only at h ⊢
              rcases h2 : run n (.tArgs fn rest (i + 1) len) opts (popKey st2) with
                _ | ⟨ro4, st4⟩
              · rw [h2] at h; exact absurd h (by simp)
              · rw [h2] at h; rw [ih _ _ _ _ h2]; exact h
            · exact h
    | tObj v =>
      rw [run_obj] at h ⊢
      rcases hof : objFields v with _ | ⟨_ | ⟨f0, fs1⟩⟩
      · rw [hof] at h
        dsimp only at h ⊢
        exact h
      · rw [hof] at h
        dsimp only at h ⊢
        exact h
      · rw [hof] at h
        dsimp only at h ⊢
        rcases h1 : run n (.tObjElems (f0 :: fs1) 0 (f0 :: fs1).length) opts
            (incDepth st) with _ | ⟨ro, st2⟩
        · rw [h1] at h; exact absurd h (by simp)
        · rw [h1] at h; rw [ih _ _ _ _ h1]; exact h
    | tObjElems fs i len =>
      cases fs with
      | nil => rw [run_objElems_nil] at h ⊢; exact h
      | cons p rest =>
        obtain ⟨key, w⟩ := p
        rw [run_objElems_cons] at h ⊢
        rcases h1 : run n (.tExpr w) opts (pushKey st key) with _ | ⟨ro2, st2⟩
        · rw [h1] at h; exact absurd h (by simp)
        · rw [h1] at h
          rw [ih _ _ _ _ h1]
          rcases ro2 with _ | out
          · exact h
          · rcases out with v0 | l
            · dsimp only at h ⊢
              rcases h2 : run n (.tObjElems rest (i + 1) len) opts (popKey st2) with
                _ | ⟨ro4, st4⟩
              · rw [h2] at h; exact absurd h (by simp)
              · rw [h2] at h; rw [ih _ _ _ _ h2]; exact h
            · exact h
    | tArrElems xs i len =>
      cases xs with
      | nil => rw [run_arrElems_nil] at h ⊢; exact h
      | cons x rest =>
        rw [run_arrElems_cons] at h ⊢
        rcases h1 : run n (.tExpr x) opts (pushIdx st i) with _ | ⟨ro2, st2⟩
        · rw [h1] at h; exact absurd h (by simp)
        · rw [h1] at h
          rw [ih _ _ _ _ h1]
          rcases ro2 with _ | out
          · exact h
          · rcases out with v0 | l
            · dsimp only at h ⊢
              rcases h2 : run n (.tArrElems rest (i + 1) len) opts (popKey st2) with
                _ | ⟨ro4, st4⟩
              · rw [h2] at h; exact absurd h (by simp)
              · rw [h2] at h; rw [ih _ _ _ _ h2]; exact h
            · exact h
    | tLetArr ys =>
      cases ys with
      | nil => rw [run_letArr_nil] at h ⊢; exact h
      | cons y rest =>
        rw [run_letArr_cons] at h ⊢
        rcases h1 : run n (.tLetElems (y :: rest) 0 (y :: rest).length) opts
            (incDepth st) with _ | ⟨ro, st2⟩
        · rw [h1] at h; exact absurd h (by simp)
        · rw [h1] at h; rw [ih _ _ _ _ h1]; exact h
    | tLetElems ys i len =>
      cases ys with
      | nil => rw [run_letElems_nil] at h ⊢; exact h
      | cons y rest =>
        rw [run_letElems_cons] at h ⊢
        rcases h1 : run n (.tObj y) opts (pushIdx st i) with _ | ⟨ro2, st2⟩
        · rw [h1] at h; exact absurd h (by simp)
        · rw [h1] at h
          rw [ih _ _ _ _ h1]
          rcases ro2 with _ | out
          · exact h
          · rcases out with v0 | l
            · dsimp only at h ⊢
              rcases h2 : run n (.tLetElems rest (i + 1) len) opts (popKey st2) with
                _ | ⟨ro4, st4⟩
              · rw [h2] at h; exact absurd h (by simp)
              · rw [h2] at h; rw [ih _ _ _ _ h2]; exact h
            · exact h

/-- Fuel monotonicity for any larger fuel. -/
theorem run_mono {fuel fuel2 : Nat} (hle : fuel ≤ fuel2) (t : Task) (opts : POptions)
    (st : PState) (res : Option Out × PState) (h : run fuel t opts st = some res) :
    run fuel2 t opts st = some res := by
  obtain ⟨k, rfl⟩ := Nat.exists_eq_add_of_le hle
  clear hle
  induction k with
  | zero => exact h
  | succ m ihm =>
    have := run_mono_succ (fuel + m) t opts st res ihm
    simpa [Nat.add_assoc] using this

theorem Task.measure_pos (t : Task) : 1 ≤ t.measure := by
  cases t <;> simp [Task.measure] <;> omega

theorem callFields_sizeFields_le (e : JsVal) :
    JsVal.sizeFields (callFields e) ≤ e.size := by
  cases e <;> simp [callFields, JsVal.sizeFields, JsVal.size] <;> omega

theorem letArgTask_measure_le (fn key : String) (arg : JsVal) :
    (letArgTask fn key arg).measure ≤ 6 * arg.size + 5 := by
  unfold letArgTask
  by_cases hc : (fn == "Let" && key == "let") = true
  · rw [if_pos hc]
    cases arg <;> simp [Task.measure, JsVal.size] <;> omega
  · rw [if_neg hc]
    simp [Task.measure]

/-- Fuel adequacy: `Task.measure t` units of fuel always produce a result
(a string or a modelled `TypeError`), never fuel exhaustion. -/
theorem run_adequate :
    ∀ fuel t opts st, Task.measure t ≤ fuel → (run fuel t opts st).isSome = true := by
  intro fuel
  induction fuel with
  | zero => intro t opts st hm; have := Task.measure_pos t; omega
  | succ n ih =>
    intro t opts st hm
    cases t with
    | tExpr e =>
      cases e with
      | vvalue v d => rw [run_expr_value]; rfl
      | vexpr r =>
        rw [run_expr_wrap]
        exact ih _ opts st (by simp [Task.measure, JsVal.size] at hm ⊢; omega)
      | vnull =>
        rw [run_expr_null]
        exact ih _ opts st (by simp [Task.measure, JsVal.size] at hm ⊢; omega)
      | vundefined =>
        rw [run_expr_undefined]
        exact ih _ opts st (by simp [Task.measure, JsVal.size] at hm ⊢; omega)
      | vbool b =>
        rw [run_expr_bool]
        exact ih _ opts st (by simp [Task.measure, JsVal.size] at hm ⊢; omega)
      | vnum m =>
        rw [run_expr_num]
        exact ih _ opts st (by simp [Task.measure, JsVal.size] at hm ⊢; omega)
      | vstr s =>
        rw [run_expr_str]
        exact ih _ opts st (by simp [Task.measure, JsVal.size] at hm ⊢; omega)
      | varr xs =>
        rw [run_expr_arr]
        exact ih _ opts st (by simp [Task.measure, JsVal.size] at hm ⊢; omega)
      | vobj fs =>
        rw [run_expr_obj]
        exact ih _ opts st (by simp [Task.measure, JsVal.size] at hm ⊢; omega)
    | tCore e =>
      cases e with
      | vnull => rw [run_core_null]; rfl
      | vundefined => rw [run_core_undefined]; rfl
      | vbool b => rw [run_core_bool]; rfl
      | vnum m => rw [run_core_num]; rfl
      | vstr s => rw [run_core_str]; rfl
      | vexpr r =>
        rw [run_core_wrap]
        exact ih _ opts st (by simp [Task.measure, JsVal.size] at hm ⊢; omega)
      | vvalue v d =>
        rw [run_core_value]
        exact ih _ opts st (by simp [Task.measure, JsVal.size] at hm ⊢; omega)
      | vobj fs =>
        rw [run_core_obj]
        rcases hlk : lookupKey "object" fs with _ | v
        · dsimp only
          exact ih _ opts st (by simp [Task.measure, JsVal.size] at hm ⊢; omega)
        · dsimp only
          have hv := lookupKey_size_le "object" fs v hlk
          exact ih _ opts st
            (by simp [Task.measure, JsVal.size] at hm ⊢; omega)
      | varr xs =>
        cases xs with
        | nil => rw [run_core_arr_nil]; rfl
        | cons x rest =>
          rw [run_core_arr_cons]
          have m1 : Task.measure (.tArrElems (x :: rest) 0 (x :: rest).length) ≤ n := by
            simp [Task.measure, JsVal.size] at hm ⊢; omega
          rcases h1 : run n (.tArrElems (x :: rest) 0 (x :: rest).length) opts
              (incDepth (arrDecide st (x :: rest))) with _ | ⟨ro, st3⟩
          · have := ih _ opts (incDepth (arrDecide st (x :: rest))) m1
            rw [h1] at this; simp at this
          · rcases ro with _ | out
            · rfl
            · rcases out with s | l <;> rfl
    | tCall e =>
      rw [run_call]
      rcases hcf : callFields e with _ | ⟨⟨k0, p0⟩, rest⟩
      · rfl
      · dsimp only
        have hsf := callFields_sizeFields_le e
        rw [hcf] at hsf
        have m1 : Task.measure (.tArgs (resolveName k0) ((k0, p0) :: rest) 0
            ((k0, p0) :: rest).length) ≤ n := by
          simp [Task.measure, JsVal.sizeFields] at hsf hm ⊢
          omega
        rcases h1 : run n (.tArgs (resolveName k0) ((k0, p0) :: rest) 0
            ((k0, p0) :: rest).length) opts
            (incDepth (callDecide st opts ((k0, p0) :: rest))) with _ | ⟨ro, st3⟩
        · have := ih _ opts (incDepth (callDecide st opts ((k0, p0) :: rest))) m1
          rw [h1] at this; simp at this
        · rcases ro with _ | out
          · rfl
          · rcases out with s | l <;> rfl
    | tArgs fn fs i len =>
      cases fs with
      | nil => rw [run_args_nil]; rfl
      | cons p rest =>
        obtain ⟨key, arg⟩ := p
        rw [run_args_cons]
        have m1 : Task.measure (letArgTask fn key arg) ≤ n := by
          have := letArgTask_measure_le fn key arg
          simp [Task.measure, JsVal.sizeFields] at hm
          omega
        rcases h1 : run n (letArgTask fn key arg) opts (pushKey st key) with _ | ⟨ro2, st2⟩
        · have := ih _ opts (pushKey st key) m1
          rw [h1] at this; simp at this
        · rcases ro2 with _ | out
          · rfl
          · rcases out with v0 | l
            · dsimp only
              have m2 : Task.measure (.tArgs fn rest (i + 1) len) ≤ n := by
                simp [Task.measure, JsVal.sizeFields] at hm ⊢
                have := JsVal.size_pos arg
                omega
              rcases h2 : run n (.tArgs fn rest (i + 1) len) opts (popKey st2) with
                _ | ⟨ro4, st4⟩
              · have := ih _ opts (popKey st2) m2
                rw [h2] at this; simp at this
              · rcases ro4 with _ | out2
                · rfl
                · rcases out2 with s | l <;> rfl
            · rfl
    | tObj v =>
      rw [run_obj]
      rcases hof : objFields v with _ | ⟨_ | ⟨f0, fs1⟩⟩
      · rfl
      · rfl
      · dsimp only
        have hsf := objFields_sizeFields_le v _ hof
        have m1 : Task.measure (.tObjElems (f0 :: fs1) 0 (f0 :: fs1).length) ≤ n := by
          simp [Task.measure] at hm ⊢
          omega
        rcases h1 : run n (.tObjElems (f0 :: fs1) 0 (f0 :: fs1).length) opts
            (incDepth st) with _ | ⟨ro, st2⟩
        · have := ih _ opts (incDepth st) m1
          rw [h1] at this; simp at this
        · rcases ro with _ | out
          · rfl
          · rcases out with s | l <;> rfl
    | tObjElems fs i len =>
      cases fs with
      | nil => rw [run_objElems_nil]; rfl
      | cons p rest =>
        obtain ⟨key, w⟩ := p
        rw [run_objElems_cons]
        have m1 : Task.measure (.tExpr w) ≤ n := by
          simp [Task.measure, JsVal.sizeFields] at hm ⊢; omega
        rcases h1 : run n (.tExpr w) opts (pushKey st key) with _ | ⟨ro2, st2⟩
        · have := ih _ opts (pushKey st key) m1
          rw [h1] at this; simp at this
        · rcases ro2 with _ | out
          · rfl
          · rcases out with v0 | l
            · dsimp only
              have m2 : Task.measure (.tObjElems rest (i + 1) len) ≤ n := by
                simp [Task.measure, JsVal.sizeFields] at hm ⊢
                have := JsVal.size_pos w
                omega
              rcases h2 : run n (.tObjElems rest (i + 1) len) opts (popKey st2) with
                _ | ⟨ro4, st4⟩
              · have := ih _ opts (popKey st2) m2
                rw [h2] at this; simp at this
              · rcases ro4 with _ | out2
                · rfl
                · rcases out2 with s | l <;> rfl
            · rfl
    | tArrElems xs i len =>
      cases xs with
      | nil => rw [run_arrElems_nil]; rfl
      | cons x rest =>
        rw [run_arrElems_cons]
        have m1 : Task.measure (.tExpr x) ≤ n := by
          simp [Task.measure, JsVal.sizeList] at hm ⊢; omega
        rcases h1 : run n (.tExpr x) opts (pushIdx st i) with _ | ⟨ro2, st2⟩
        · have := ih _ opts (pushIdx st i) m1
          rw [h1] at this; simp at this
        · rcases ro2 with _ | out
          · rfl
          · rcases out with v0 | l
            · dsimp only
              have m2 : Task.measure (.tArrElems rest (i + 1) len) ≤ n := by
                simp [Task.measure, JsVal.sizeList] at hm ⊢
                have := JsVal.size_pos x
                omega
              rcases h2 : run n (.tArrElems rest (i + 1) len) opts (popKey st2) with
                _ | ⟨ro4, st4⟩
              · have := ih _ opts (popKey st2) m2
                rw [h2] at this; simp at this
              · rcases ro4 with _ | out2
                · rfl
                · rcases out2 with s | l <;> rfl
            · rfl
    | tLetArr ys =>
      cases ys with
      | nil => rw [run_letArr_nil]; rfl
      | cons y rest =>
        rw [run_letArr_cons]
        have m1 : Task.measure (.tLetElems (y :: rest) 0 (y :: rest).length) ≤ n := by
          simp [Task.measure] at hm ⊢; omega
        rcases h1 : run n (.tLetElems (y :: rest) 0 (y :: rest).length) opts
            (incDepth st) with _ | ⟨ro, st2⟩
        · have := ih _ opts (incDepth st) m1
          rw [h1] at this; simp at this
        · rcases ro with _ | out
          · rfl
          · rcases out with s | l <;> rfl
    | tLetElems ys i len =>
      cases ys with
      | nil => rw [run_letElems_nil]; rfl
      | cons y rest =>
        rw [run_letElems_cons]
        have m1 : Task.measure (.tObj y) ≤ n := by
          simp [Task.measure, JsVal.sizeList] at hm ⊢; omega
        rcases h1 : run n (.tObj y) opts (pushIdx st i) with _ | ⟨ro2, st2⟩
        · have := ih _ opts (pushIdx st i) m1
          rw [h1] at this; simp at this
        · rcases ro2 with _ | out
          · rfl
          · rcases out with v0 | l
            · dsimp only
              have m2 : Task.measure (.tLetElems rest (i + 1) len) ≤ n := by
                simp [Task.measure, JsVal.sizeList] at hm ⊢
                have := JsVal.size_pos y
                omega
              rcases h2 : run n (.tLetElems rest (i + 1) len) opts (popKey st2) with
                _ | ⟨ro4, st4⟩
              · have := ih _ opts (popKey st2) m2
                rw [h2] at this; simp at this
              · rcases ro4 with _ | out2
                · rfl
                · rcases out2 with s | l <;> rfl
            · rfl

theorem popKey_pushKey (st : PState) (k : String) : popKey (pushKey st k) = st := by
  cases st
  simp [popKey, pushKey]

theorem popKey_pushIdx (st : PState) (i : Nat) : popKey (pushIdx st i) = st := by
  cases st
  simp [popKey, pushIdx]

theorem decDepth_incDepth (st : PState) : decDepth (incDepth st) = st := by
  cases st
  simp [decDepth, incDepth]

theorem setCompact_self (st : PState) : setCompact st st.compact = st := by
  cases st
  simp [setCompact]

theorem setCompact_setCompact (st : PState) (a b : Bool) :
    setCompact (setCompact st a) b = setCompact st b := by
  cases st
  simp [setCompact]

theorem setCompact_arrDecide (st : PState) (xs : List JsVal) :
    setCompact (arrDecide st xs) st.compact = st := by
  unfold arrDecide
  by_cases hc : st.compact = true
  · rw [if_pos hc, setCompact_self]
  · rw [if_neg hc, setCompact_setCompact, setCompact_self]

theorem setCompact_callDecide (st : PState) (o : POptions) (fs : List (String × JsVal)) :
    setCompact (callDecide st o fs) st.compact = st := by
  unfold callDecide
  by_cases hc : st.compact = true
  · rw [if_pos hc, setCompact_self]
  · rw [if_neg hc, setCompact_setCompact, setCompact_self]

/-- A successful rendering restores the mutable state exactly as found, and
its result has the right shape for its task (a string everywhere except the
argument-list task). -/
theorem run_some_spec :
    ∀ fuel t opts st r st2, run fuel t opts st = some (some r, st2) →
      st2 = st ∧ (match t with
        | .tArgs _ _ _ _ => ∃ xs, r = Out.list xs
        | _ => ∃ s, r = Out.str s) := by
  intro fuel
  induction fuel with
  | zero => intro t opts st r st2 h; simp [run] at h
  | succ n ih =>
    intro t opts st r st2 h
    cases t with
    | tExpr e =>
      cases e with
      | vvalue v d =>
        rw [run_expr_value] at h
        simp only [Option.some.injEq, Prod.mk.injEq] at h
        exact ⟨h.2.symm, _, h.1.symm⟩
      | vexpr r0 => rw [run_expr_wrap] at h; exact ih _ _ _ _ _ h
      | vnull => rw [run_expr_null] at h; exact ih _ _ _ _ _ h
      | vundefined => rw [run_expr_undefined] at h; exact ih _ _ _ _ _ h
      | vbool b => rw [run_expr_bool] at h; exact ih _ _ _ _ _ h
      | vnum m => rw [run_expr_num] at h; exact ih _ _ _ _ _ h
      | vstr s => rw [run_expr_str] at h; exact ih _ _ _ _ _ h
      | varr xs => rw [run_expr_arr] at h; exact ih _ _ _ _ _ h
      | vobj fs => rw [run_expr_obj] at h; exact ih _ _ _ _ _ h
    | tCore e =>
      cases e with
      | vnull =>
        rw [run_core_null] at h
        simp only [Option.some.injEq, Prod.mk.injEq] at h
        exact ⟨h.2.symm, _, h.1.symm⟩
      | vundefined =>
        rw [run_core_undefined] at h
        simp only [Option.some.injEq, Prod.mk.injEq] at h
        exact ⟨h.2.symm, _, h.1.symm⟩
      | vbool b =>
        rw [run_core_bool] at h
        simp only [Option.some.injEq, Prod.mk.injEq] at h
        exact ⟨h.2.symm, _, h.1.symm⟩
      | vnum m =>
        rw [run_core_num] at h
        simp only [Option.some.injEq, Prod.mk.injEq] at h
        exact ⟨h.2.symm, _, h.1.symm⟩
      | vstr s =>
        rw [run_core_str] at h
        simp only [Option.some.injEq, Prod.mk.injEq] at h
        exact ⟨h.2.symm, _, h.1.symm⟩
      | vexpr r0 => rw [run_core_wrap] at h; exact ih _ _ _ _ _ h
      | vvalue v d => rw [run_core_value] at h; exact ih _ _ _ _ _ h
      | vobj fs =>
        rw [run_core_obj] at h
        rcases hlk : lookupKey "object" fs with _ | v
        all_goals rw [hlk] at h
        all_goals dsimp only at h
        all_goals exact ih _ _ _ _ _ h
      | varr xs =>
        cases xs with
        | nil =>
          rw [run_core_arr_nil] at h
          simp only [Option.some.injEq, Prod.mk.injEq] at h
          exact ⟨h.2.symm, _, h.1.symm⟩
        | cons x rest =>
          rw [run_core_arr_cons] at h
          rcases h1 : run n (.tArrElems (x :: rest) 0 (x :: rest).length) opts
              (incDepth (arrDecide st (x :: rest))) with _ | ⟨ro, st3⟩
          · rw [h1] at h; exact absurd h (by simp)
          · rw [h1] at h
            rcases ro with _ | out
            · exact absurd h (by simp)
            · rcases out with body | l
              · dsimp only at h
                simp only [Option.some.injEq, Prod.mk.injEq] at h
                obtain ⟨hr, hst⟩ := h
                obtain ⟨hst1, -⟩ := ih _ _ _ _ _ h1
                refine ⟨?_, _, hr.symm⟩
                rw [← hst, hst1, decDepth_incDepth, setCompact_arrDecide]
              · exact absurd h (by simp)
    | tCall e =>
      rw [run_call] at h
      rcases hcf : callFields e with _ | ⟨⟨k0, p0⟩, rest⟩
      · rw [hcf] at h
        dsimp only at h
        exact absurd h (by simp)
      · rw [hcf] at h
        dsimp only at h
        rcases h1 : run n (.tArgs (resolveName k0) ((k0, p0) :: rest) 0
            ((k0, p0) :: rest).length) opts
            (incDepth (callDecide st opts ((k0, p0) :: rest))) with _ | ⟨ro, st3⟩
        · rw [h1] at h; exact absurd h (by simp)
        · rw [h1] at h
          rcases ro with _ | out
          · exact absurd h (by simp)
          · rcases out with s | args
            · exact absurd h (by simp)
            · dsimp only at h
              simp only [Option.some.injEq, Prod.mk.injEq] at h
              obtain ⟨hr, hst⟩ := h
              obtain ⟨hst1, -⟩ := ih _ _ _ _ _ h1
              refine ⟨?_, _, hr.symm⟩
              rw [← hst, hst1, decDepth_incDepth, setCompact_callDecide]
    | tArgs fn fs i len =>
      cases fs with
      | nil =>
        rw [run_args_nil] at h
        simp only [Option.some.injEq, Prod.mk.injEq] at h
        exact ⟨h.2.symm, _, h.1.symm⟩
      | cons p rest =>
        obtain ⟨key, arg⟩ := p
        rw [run_args_cons] at h
        rcases h1 : run n (letArgTask fn key arg) opts (pushKey st key) with _ | ⟨ro2, st2x⟩
        · rw [h1] at h; exact absurd h (by simp)
        · rw [h1] at h
          rcases ro2 with _ | out
          · exact absurd h (by simp)
          · rcases out with v0 | l
            · dsimp only at h
              rcases h2 : run n (.tArgs fn rest (i + 1) len) opts (popKey st2x) with
                _ | ⟨ro4, st4⟩
              · rw [h2] at h; exact absurd h (by simp)
              · rw [h2] at h
                rcases ro4 with _ | out2
                · exact absurd h (by simp)
                · rcases out2 with s | pieces
                  · exact absurd h (by simp)
                  · dsimp only at h
                    simp only [Option.some.injEq, Prod.mk.injEq] at h
                    obtain ⟨hr, hst⟩ := h
                    obtain ⟨hst1, -⟩ := ih _ _ _ _ _ h1
                    obtain ⟨hst2, -⟩ := ih _ _ _ _ _ h2
                    refine ⟨?_, _, hr.symm⟩
                    rw [← hst, hst2, hst1, popKey_pushKey]
            · exact absurd h (by simp)
    | tObj v =>
      rw [run_obj] at h
      rcases hof : objFields v with _ | ⟨_ | ⟨f0, fs1⟩⟩
      · rw [hof] at h
        dsimp only at h
        exact absurd h (by simp)
      · rw [hof] at h
        dsimp only at h
        simp only [Option.some.injEq, Prod.mk.injEq] at h
        exact ⟨h.2.symm, _, h.1.symm⟩
      · rw [hof] at h
        dsimp only at h
        rcases h1 : run n (.tObjElems (f0 :: fs1) 0 (f0 :: fs1).length) opts
            (incDepth st) with _ | ⟨ro, st2x⟩
        · rw [h1] at h; exact absurd h (by simp)
        · rw [h1] at h
          rcases ro with _ | out
          · exact absurd h (by simp)
          · rcases out with body | l
            · dsimp only at h
              simp only [Option.some.injEq, Prod.mk.injEq] at h
              obtain ⟨hr, hst⟩ := h
              obtain ⟨hst1, -⟩ := ih _ _ _ _ _ h1
              refine ⟨?_, _, hr.symm⟩
              rw [← hst, hst1, decDepth_incDepth]
            · exact absurd h (by simp)
    | tObjElems fs i len =>
      cases fs with
      | nil =>
        rw [run_objElems_nil] at h
        simp only [Option.some.injEq, Prod.mk.injEq] at h
        exact ⟨h.2.symm, _, h.1.symm⟩
      | cons p rest =>
        obtain ⟨key, w⟩ := p
        rw [run_objElems_cons] at h
        rcases h1 : run n (.tExpr w) opts (pushKey st key) with _ | ⟨ro2, st2x⟩
        · rw [h1] at h; exact absurd h (by simp)
        · rw [h1] at h
          rcases ro2 with _ | out
          · exact absurd h (by simp)
          · rcases out with v0 | l
            · dsimp only at h
              rcases h2 : run n (.tObjElems rest (i + 1) len) opts (popKey st2x) with
                _ | ⟨ro4, st4⟩
              · rw [h2] at h; exact absurd h (by simp)
              · rw [h2] at h
                rcases ro4 with _ | out2
                · exact absurd h (by simp)
                · rcases out2 with restStr | l2
                  · dsimp only at h
                    simp only [Option.some.injEq, Prod.mk.injEq] at h
                    obtain ⟨hr, hst⟩ := h
                    obtain ⟨hst1, -⟩ := ih _ _ _ _ _ h1
                    obtain ⟨hst2, -⟩ := ih _ _ _ _ _ h2
                    refine ⟨?_, _, hr.symm⟩
                    rw [← hst, hst2, hst1, popKey_pushKey]
                  · exact absurd h (by simp)
            · exact absurd h (by simp)
    | tArrElems xs i len =>
      cases xs with
      | nil =>
        rw [run_arrElems_nil] at h
        simp only [Option.some.injEq, Prod.mk.injEq] at h
        exact ⟨h.2.symm, _, h.1.symm⟩
      | cons x rest =>
        rw [run_arrElems_cons] at h
        rcases h1 : run n (.tExpr x) opts (pushIdx st i) with _ | ⟨ro2, st2x⟩
        · rw [h1] at h; exact absurd h (by simp)
        · rw [h1] at h
          rcases ro2 with _ | out
          · exact absurd h (by simp)
          · rcases out with v0 | l
            · dsimp only at h
              rcases h2 : run n (.tArrElems rest (i + 1) len) opts (popKey st2x) with
                _ | ⟨ro4, st4⟩
              · rw [h2] at h; exact absurd h (by simp)
              · rw [h2] at h
                rcases ro4 with _ | out2
                · exact absurd h (by simp)
                · rcases out2 with restStr | l2
                  · dsimp only at h
                    simp only [Option.some.injEq, Prod.mk.injEq] at h
                    obtain ⟨hr, hst⟩ := h
                    obtain ⟨hst1, -⟩ := ih _ _ _ _ _ h1
                    obtain ⟨hst2, -⟩ := ih _ _ _ _ _ h2
                    refine ⟨?_, _, hr.symm⟩
                    rw [← hst, hst2, hst1, popKey_pushIdx]
                  · exact absurd h (by simp)
            · exact absurd h (by simp)
    | tLetArr ys =>
      cases ys with
      | nil =>
        rw [run_letArr_nil] at h
        simp only [Option.some.injEq, Prod.mk.injEq] at h
        exact ⟨h.2.symm, _, h.1.symm⟩
      | cons y rest =>
        rw [run_letArr_cons] at h
        rcases h1 : run n (.tLetElems (y :: rest) 0 (y :: rest).length) opts
            (incDepth st) with _ | ⟨ro, st2x⟩
        · rw [h1] at h; exact absurd h (by simp)
        · rw [h1] at h
          rcases ro with _ | out
          · exact absurd h (by simp)
          · rcases out with body | l
            · dsimp only at h
              simp only [Option.some.injEq, Prod.mk.injEq] at h
              obtain ⟨hr, hst⟩ := h
              obtain ⟨hst1, -⟩ := ih _ _ _ _ _ h1
              refine ⟨?_, _, hr.symm⟩
              rw [← hst, hst1, decDepth_incDepth]
            · exact absurd h (by simp)
    | tLetElems ys i len =>
      cases ys with
      | nil =>
        rw [run_letElems_nil] at h
        simp only [Option.some.injEq, Prod.mk.injEq] at h
        exact ⟨h.2.symm, _, h.1.symm⟩
      | cons y rest =>
        rw [run_letElems_cons] at h
        rcases h1 : run n (.tObj y) opts (pushIdx st i) with _ | ⟨ro2, st2x⟩
        · rw [h1] at h; exact absurd h (by simp)
        · rw [h1] at h
          rcases ro2 with _ | out
          · exact absurd h (by simp)
          · rcases out with v0 | l
            · dsimp only at h
              rcases h2 : run n (.tLetElems rest (i + 1) len) opts (popKey st2x) with
                _ | ⟨ro4, st4⟩
              · rw [h2] at h; exact absurd h (by simp)
              · rw [h2] at h
                rcases ro4 with _ | out2
                · exact absurd h (by simp)
                · rcases out2 with restStr | l2
                  · dsimp only at h
                    simp only [Option.some.injEq, Prod.mk.injEq] at h
                    obtain ⟨hr, hst⟩ := h
                    obtain ⟨hst1, -⟩ := ih _ _ _ _ _ h1
                    obtain ⟨hst2, -⟩ := ih _ _ _ _ _ h2
                    refine ⟨?_, _, hr.symm⟩
                    rw [← hst, hst2, hst1, popKey_pushIdx]
                  · exact absurd h (by simp)
            · exact absurd h (by simp)

theorem taskOk_letArgTask (fn key : String) (arg : JsVal) :
    taskOk (letArgTask fn key arg) =
      (if fn == "Let" && key == "let" then letOk arg else renderOk arg) := by
  unfold letArgTask
  by_cases hc : (fn == "Let" && key == "let") = true
  · rw [if_pos hc, if_pos hc]
    cases arg <;> simp [taskOk, letOk]
  · rw [if_neg hc, if_neg hc]
    simp [taskOk]

theorem letArgTask_shape (fn key : String) (arg : JsVal) (r : Out)
    (h : match letArgTask fn key arg with
      | .tArgs _ _ _ _ => ∃ xs, r = Out.list xs
      | _ => ∃ s, r = Out.str s) :
    ∃ s, r = Out.str s := by
  unfold letArgTask at h
  by_cases hc : (fn == "Let" && key == "let") = true
  · rw [if_pos hc] at h
    cases arg <;> exact h
  · rw [if_neg hc] at h
    exact h

/-- Sufficiency of the `renderOk` family: an accepted task renders to a
result (no `TypeError`) with adequate fuel. -/
theorem run_ok :
    ∀ fuel t opts st, Task.measure t ≤ fuel → taskOk t = true →
      ∃ r st2, run fuel t opts st = some (some r, st2) := by
  intro fuel
  induction fuel with
  | zero => intro t opts st hm _; have := Task.measure_pos t; omega
  | succ n ih =>
    intro t opts st hm hok
    cases t with
    | tExpr e =>
      cases e with
      | vvalue v d => exact ⟨_, _, run_expr_value n v d opts st⟩
      | vexpr r =>
        rw [run_expr_wrap]
        refine ih _ opts st ?_ ?_
        · simp [Task.measure, JsVal.size] at hm ⊢; omega
        · simpa [taskOk, renderOk] using hok
      | vnull =>
        rw [run_expr_null]
        refine ih _ opts st ?_ ?_
        · simp [Task.measure, JsVal.size] at hm ⊢; omega
        · simpa [taskOk, renderOk] using hok
      | vundefined =>
        rw [run_expr_undefined]
        refine ih _ opts st ?_ ?_
        · simp [Task.measure, JsVal.size] at hm ⊢; omega
        · simpa [taskOk, renderOk] using hok
      | vbool b =>
        rw [run_expr_bool]
        refine ih _ opts st ?_ ?_
        · simp [Task.measure, JsVal.size] at hm ⊢; omega
        · simpa [taskOk, renderOk] using hok
      | vnum m =>
        rw [run_expr_num]
        refine ih _ opts st ?_ ?_
        · simp [Task.measure, JsVal.size] at hm ⊢; omega
        · simpa [taskOk, renderOk] using hok
      | vstr s =>
        rw [run_expr_str]
        refine ih _ opts st ?_ ?_
        · simp [Task.measure, JsVal.size] at hm ⊢; omega
        · simpa [taskOk, renderOk] using hok
      | varr xs =>
        rw [run_expr_arr]
        refine ih _ opts st ?_ ?_
        · simp [Task.measure, JsVal.size] at hm ⊢; omega
        · simpa [taskOk, renderOk] using hok
      | vobj fs =>
        rw [run_expr_obj]
        refine ih _ opts st ?_ ?_
        · simp [Task.measure, JsVal.size] at hm ⊢; omega
        · simpa [taskOk, renderOk] using hok
    | tCore e =>
      cases e with
      | vnull => exact ⟨_, _, run_core_null n opts st⟩
      | vundefined => exact ⟨_, _, run_core_undefined n opts st⟩
      | vbool b => exact ⟨_, _, run_core_bool n b opts st⟩
      | vnum m => exact ⟨_, _, run_core_num n m opts st⟩
      | vstr s => exact ⟨_, _, run_core_str n s opts st⟩
      | vexpr r =>
        rw [run_core_wrap]
        refine ih _ opts st ?_ ?_
        · simp [Task.measure, JsVal.size] at hm ⊢; omega
        · simp only [taskOk, coreOk] at hok ⊢
          simpa [callFields] using hok
      | vvalue v d =>
        rw [run_core_value]
        refine ih _ opts st ?_ ?_
        · simp [Task.measure, JsVal.size] at hm ⊢; omega
        · simp only [taskOk, coreOk] at hok ⊢
          simpa [callFields] using hok
      | vobj fs =>
        rw [run_core_obj]
        simp only [taskOk, coreOk] at hok
        split at hok
        · rename_i v heq
          rw [heq]
          dsimp only
          have hv := lookupKey_size_le "object" fs v heq
          refine ih _ opts st ?_ ?_
          · simp [Task.measure, JsVal.size] at hm ⊢; omega
          · simpa [taskOk] using hok
        · rename_i heq
          rw [heq]
          dsimp only
          cases fs with
          | nil => simp at hok
          | cons p0 rest0 =>
            obtain ⟨k0, v0⟩ := p0
            dsimp only at hok
            refine ih _ opts st ?_ ?_
            · simp [Task.measure, JsVal.size] at hm ⊢; omega
            · simp only [taskOk, callFields]
              simpa using hok
      | varr xs =>
        cases xs with
        | nil => exact ⟨_, _, run_core_arr_nil n opts st⟩
        | cons x rest =>
          rw [run_core_arr_cons]
          simp only [taskOk, coreOk] at hok
          have m1 : Task.measure (.tArrElems (x :: rest) 0 (x :: rest).length) ≤ n := by
            simp [Task.measure, JsVal.size] at hm ⊢; omega
          obtain ⟨r2, st3, h1⟩ := ih _ opts (incDepth (arrDecide st (x :: rest))) m1
            (by simpa [taskOk] using hok)
          obtain ⟨-, body, rfl⟩ := run_some_spec n _ opts _ _ _ h1
          rw [h1]
          exact ⟨_, _, rfl⟩
    | tCall e =>
      rw [run_call]
      simp only [taskOk] at hok
      rcases hcf : callFields e with _ | ⟨⟨k0, p0⟩, rest⟩
      · rw [hcf] at hok; simp at hok
      · rw [hcf] at hok
        dsimp only at hok ⊢
        have hsf := callFields_sizeFields_le e
        rw [hcf] at hsf
        have m1 : Task.measure (.tArgs (resolveName k0) ((k0, p0) :: rest) 0
            ((k0, p0) :: rest).length) ≤ n := by
          simp [Task.measure, JsVal.sizeFields] at hsf hm ⊢
          omega
        obtain ⟨r2, st3, h1⟩ := ih _ opts
          (incDepth (callDecide st opts ((k0, p0) :: rest))) m1 (by simpa [taskOk] using hok)
        obtain ⟨-, args, rfl⟩ := run_some_spec n _ opts _ _ _ h1
        rw [h1]
        exact ⟨_, _, rfl⟩
    | tArgs fn fs i len =>
      cases fs with
      | nil => exact ⟨_, _, run_args_nil n fn i len opts st⟩
      | cons p rest =>
        obtain ⟨key, arg⟩ := p
        rw [run_args_cons]
        simp only [taskOk, argsOk] at hok
        obtain ⟨hok1, hok2⟩ := Eq.mp (Bool.and_eq_true _ _) hok
        have m1 : Task.measure (letArgTask fn key arg) ≤ n := by
          have := letArgTask_measure_le fn key arg
          simp [Task.measure, JsVal.sizeFields] at hm
          omega
        obtain ⟨r2, st2, h1⟩ := ih _ opts (pushKey st key) m1
          (by rw [taskOk_letArgTask]; exact hok1)
        obtain ⟨-, hshape⟩ := run_some_spec n _ opts _ _ _ h1
        obtain ⟨v0, rfl⟩ := letArgTask_shape fn key arg r2 hshape
        rw [h1]
        dsimp only
        have m2 : Task.measure (.tArgs fn rest (i + 1) len) ≤ n := by
          simp [Task.measure, JsVal.sizeFields] at hm ⊢
          have := JsVal.size_pos arg
          omega
        obtain ⟨r4, st4, h2⟩ := ih _ opts (popKey st2) m2 (by simpa [taskOk] using hok2)
        obtain ⟨-, pieces, rfl⟩ := run_some_spec n _ opts _ _ _ h2
        rw [h2]
        exact ⟨_, _, rfl⟩
    | tObj v =>
      rw [run_obj]
      simp only [taskOk] at hok
      unfold objOk at hok
      rcases hof : objFields v with _ | ⟨_ | ⟨f0, fs1⟩⟩
      · rw [hof] at hok; simp at hok
      · dsimp only
        exact ⟨_, _, rfl⟩
      · rw [hof] at hok
        dsimp only at hok ⊢
        have hsf := objFields_sizeFields_le v _ hof
        have m1 : Task.measure (.tObjElems (f0 :: fs1) 0 (f0 :: fs1).length) ≤ n := by
          simp [Task.measure] at hm ⊢
          omega
        obtain ⟨r2, st2, h1⟩ := ih _ opts (incDepth st) m1 (by simpa [taskOk] using hok)
        obtain ⟨-, body, rfl⟩ := run_some_spec n _ opts _ _ _ h1
        rw [h1]
        exact ⟨_, _, rfl⟩
    | tObjElems fs i len =>
      cases fs with
      | nil => exact ⟨_, _, run_objElems_nil n i len opts st⟩
      | cons p rest =>
        obtain ⟨key, w⟩ := p
        rw [run_objElems_cons]
        simp only [taskOk, objElemsOk, Bool.and_eq_true] at hok
        obtain ⟨hok1, hok2⟩ := hok
        have m1 : Task.measure (.tExpr w) ≤ n := by
          simp [Task.measure, JsVal.sizeFields] at hm ⊢; omega
        obtain ⟨r2, st2, h1⟩ := ih _ opts (pushKey st key) m1 (by simpa [taskOk] using hok1)
        obtain ⟨-, v0, rfl⟩ := run_some_spec n _ opts _ _ _ h1
        rw [h1]
        dsimp only
        have m2 : Task.measure (.tObjElems rest (i + 1) len) ≤ n := by
          simp [Task.measure, JsVal.sizeFields] at hm ⊢
          have := JsVal.size_pos w
          omega
        obtain ⟨r4, st4, h2⟩ := ih _ opts (popKey st2) m2 (by simpa [taskOk] using hok2)
        obtain ⟨-, restStr, rfl⟩ := run_some_spec n _ opts _ _ _ h2
        rw [h2]
        exact ⟨_, _, rfl⟩
    | tArrElems xs i len =>
      cases xs with
      | nil => exact ⟨_, _, run_arrElems_nil n i len opts st⟩
      | cons x rest =>
        rw [run_arrElems_cons]
        simp only [taskOk, arrOk, Bool.and_eq_true] at hok
        obtain ⟨hok1, hok2⟩ := hok
        have m1 : Task.measure (.tExpr x) ≤ n := by
          simp [Task.measure, JsVal.sizeList] at hm ⊢; omega
        obtain ⟨r2, st2, h1⟩ := ih _ opts (pushIdx st i) m1 (by simpa [taskOk] using hok1)
        obtain ⟨-, v0, rfl⟩ := run_some_spec n _ opts _ _ _ h1
        rw [h1]
        dsimp only
        have m2 : Task.measure (.tArrElems rest (i + 1) len) ≤ n := by
          simp [Task.measure, JsVal.sizeList] at hm ⊢
          have := JsVal.size_pos x
          omega
        obtain ⟨r4, st4, h2⟩ := ih _ opts (popKey st2) m2 (by simpa [taskOk] using hok2)
        obtain ⟨-, restStr, rfl⟩ := run_some_spec n _ opts _ _ _ h2
        rw [h2]
        exact ⟨_, _, rfl⟩
    | tLetArr ys =>
      cases ys with
      | nil => exact ⟨_, _, run_letArr_nil n opts st⟩
      | cons y rest =>
        rw [run_letArr_cons]
        simp only [taskOk] at hok
        have m1 : Task.measure (.tLetElems (y :: rest) 0 (y :: rest).length) ≤ n := by
          simp [Task.measure] at hm ⊢; omega
        obtain ⟨r2, st2, h1⟩ := ih _ opts (incDepth st) m1 (by simpa [taskOk] using hok)
        obtain ⟨-, body, rfl⟩ := run_some_spec n _ opts _ _ _ h1
        rw [h1]
        exact ⟨_, _, rfl⟩
    | tLetElems ys i len =>
      cases ys with
      | nil => exact ⟨_, _, run_letElems_nil n i len opts st⟩
      | cons y rest =>
        rw [run_letElems_cons]
        simp only [taskOk, arrObjOk, Bool.and_eq_true] at hok
        obtain ⟨hok1, hok2⟩ := hok
        have m1 : Task.measure (.tObj y) ≤ n := by
          simp [Task.measure, JsVal.sizeList] at hm ⊢; omega
        obtain ⟨r2, st2, h1⟩ := ih _ opts (pushIdx st i) m1 (by simpa [taskOk] using hok1)
        obtain ⟨-, v0, rfl⟩ := run_some_spec n _ opts _ _ _ h1
        rw [h1]
        dsimp only
        have m2 : Task.measure (.tLetElems rest (i + 1) len) ≤ n := by
          simp [Task.measure, JsVal.sizeList] at hm ⊢
          have := JsVal.size_pos y
          omega
        obtain ⟨r4, st4, h2⟩ := ih _ opts (popKey st2) m2 (by simpa [taskOk] using hok2)
        obtain ⟨-, restStr, rfl⟩ := run_some_spec n _ opts _ _ _ h2
        rw [h2]
        exact ⟨_, _, rfl⟩

/-! ### Cleanliness: single-line output in compact mode -/

/-- Cleanliness of a task result. -/
def outClean : Out → Bool
  | .str s => cleanStr s
  | .list xs => xs.all cleanStr

/-- Cleanliness of the data embedded in a task. -/
def taskClean : Task → Bool
  | .tExpr e => cleanVal e
  | .tCore e => cleanVal e
  | .tCall e => cleanVal e
  | .tArgs _ fs _ _ => cleanFields fs
  | .tObj v => cleanVal v
  | .tObjElems fs _ _ => cleanFields fs
  | .tArrElems xs _ _ => cleanList xs
  | .tLetArr ys => cleanList ys
  | .tLetElems ys _ _ => cleanList ys

theorem cleanStr_mk (l : List Char) : cleanStr (String.mk l) = l.all cleanChar := rfl

theorem cleanStr_append (a b : String) :
    cleanStr (a ++ b) = (cleanStr a && cleanStr b) := by
  simp [cleanStr, String.data_append, List.all_append]

theorem cleanStr_foldl : ∀ (l : List String) (a : String), cleanStr a = true →
    l.all cleanStr = true → cleanStr (l.foldl (fun r s => r ++ s) a) = true := by
  intro l
  induction l with
  | nil => intro a ha _; exact ha
  | cons s rest ih =>
    intro a ha hl
    simp only [List.all_cons, Bool.and_eq_true] at hl
    exact ih (a ++ s) (by simp [cleanStr_append, ha, hl.1]) hl.2

theorem cleanStr_join (l : List String) (h : l.all cleanStr = true) :
    cleanStr (String.join l) = true := cleanStr_foldl l "" (by decide) h

theorem cleanChar_digitChar (d : Nat) : cleanChar (digitChar d) = true := by
  unfold digitChar
  split_ifs <;> decide

theorem cleanChar_hexDigitChar (d : Nat) : cleanChar (hexDigitChar d) = true := by
  unfold hexDigitChar
  split_ifs <;> first | decide | exact cleanChar_digitChar d

theorem cleanStr_hex4 (n : Nat) : cleanStr (hex4 n) = true := by
  rw [hex4, cleanStr_mk]
  simp [cleanChar_hexDigitChar]

theorem cleanStr_natDecCore : ∀ fuel n, cleanStr (natDecCore fuel n) = true := by
  intro fuel
  induction fuel with
  | zero => intro n; rfl
  | succ m ih =>
    intro n
    simp only [natDecCore]
    split_ifs with h
    · rw [cleanStr_mk]; simp [cleanChar_digitChar]
    · rw [cleanStr_append, ih, cleanStr_mk]; simp [cleanChar_digitChar]

theorem cleanStr_natDecStr (n : Nat) : cleanStr (natDecStr n) = true :=
  cleanStr_natDecCore _ _

theorem cleanStr_intToString (i : Int) : cleanStr (intToString i) = true := by
  unfold intToString natDecStr
  split_ifs
  · rw [cleanStr_append, cleanStr_natDecCore]
    decide
  · exact cleanStr_natDecCore _ _

theorem cleanStr_jsonEscapeChar (c : Char) (h : cleanChar c = true) :
    cleanStr (jsonEscapeChar c) = true := by
  unfold jsonEscapeChar
  split_ifs
  · decide
  · decide
  · decide
  · decide
  · decide
  · decide
  · decide
  · rw [cleanStr_append, cleanStr_hex4]
    decide
  · show List.all [c] cleanChar = true
    simp [h]

theorem cleanStr_jsonQuote (s : String) (h : cleanStr s = true) :
    cleanStr (jsonQuote s) = true := by
  unfold jsonQuote
  rw [cleanStr_append, cleanStr_append]
  have hj : cleanStr (String.join (s.data.map jsonEscapeChar)) = true := by
    apply cleanStr_join
    unfold cleanStr at h
    rw [List.all_eq_true] at h ⊢
    intro x hx
    rw [List.mem_map] at hx
    obtain ⟨c, hc, rfl⟩ := hx
    exact cleanStr_jsonEscapeChar c (h c hc)
  rw [hj]
  decide

theorem cleanChar_jsToUpper (c : Char) (h : cleanChar c = true) :
    cleanChar (jsToUpper c) = true := by
  unfold jsToUpper
  split_ifs with hc
  · obtain ⟨h1, h2⟩ := hc
    have hl : 97 ≤ c.toNat := h1
    have hu : c.toNat ≤ 122 := h2
    generalize hg : c.toNat = m at hl hu ⊢
    interval_cases m <;> decide
  · exact h

theorem splitUnderscore_all : ∀ l : List Char, l.all cleanChar = true →
    (splitUnderscore l).all (fun g => g.all cleanChar) = true := by
  intro l
  induction l with
  | nil => intro _; decide
  | cons c rest ih =>
    intro h
    simp only [List.all_cons, Bool.and_eq_true] at h
    obtain ⟨hc, hr⟩ := h
    have hrest := ih hr
    simp only [splitUnderscore]
    split_ifs with hu
    · simp only [List.all_cons, Bool.and_eq_true]
      exact ⟨by decide, hrest⟩
    · rcases hs : splitUnderscore rest with _ | ⟨g, gs⟩
      · simp [List.all_cons, hc]
      · rw [hs] at hrest
        simp only [List.all_cons, Bool.and_eq_true] at hrest ⊢
        exact ⟨by simp [hc, hrest.1], hrest.2⟩

theorem cleanStr_ucFirst (g : List Char) (h : g.all cleanChar = true) :
    cleanStr (ucFirst (String.mk g)) = true := by
  cases g with
  | nil => decide
  | cons c cs =>
    simp only [List.all_cons, Bool.and_eq_true] at h
    show cleanStr (String.mk (jsToUpper c :: cs)) = true
    rw [cleanStr_mk]
    simp only [List.all_cons, Bool.and_eq_true]
    exact ⟨cleanChar_jsToUpper c h.1, h.2⟩

theorem cleanStr_pascalCase (key : String) (h : cleanStr key = true) :
    cleanStr (pascalCase key) = true := by
  unfold pascalCase
  apply cleanStr_join
  have hs := splitUnderscore_all key.data h
  rw [List.all_eq_true] at hs ⊢
  intro x hx
  rw [List.mem_map] at hx
  obtain ⟨g, hg, rfl⟩ := hx
  exact cleanStr_ucFirst g (hs g hg)

theorem lookupKey_clean (key : String) : ∀ (fs : List (String × JsVal)) (v : JsVal),
    cleanFields fs = true → lookupKey key fs = some v → cleanVal v = true := by
  intro fs
  induction fs with
  | nil => intro v _ hv; simp [lookupKey] at hv
  | cons q rest ih =>
    intro v hc hv
    obtain ⟨k, w⟩ := q
    simp only [cleanFields, Bool.and_eq_true] at hc
    simp only [lookupKey] at hv
    by_cases hk : (k == key) = true
    · rw [if_pos hk] at hv
      cases hv
      exact hc.1.2
    · rw [if_neg hk] at hv
      exact ih v hc.2 hv

theorem lookupKey_val_clean {β : Type} (p : β → Bool) (key : String) :
    ∀ (l : List (String × β)) (v : β), (l.all fun q => p q.2) = true →
      lookupKey key l = some v → p v = true := by
  intro l
  induction l with
  | nil => intro v _ hv; simp [lookupKey] at hv
  | cons q rest ih =>
    intro v hall hv
    obtain ⟨k, w⟩ := q
    simp only [List.all_cons, Bool.and_eq_true] at hall
    simp only [lookupKey] at hv
    by_cases hk : (k == key) = true
    · rw [if_pos hk] at hv
      cases hv
      exact hall.1
    · rw [if_neg hk] at hv
      exact ih v hall.2 hv

theorem cleanStr_resolveName (key : String) (h : cleanStr key = true) :
    cleanStr (resolveName key) = true := by
  unfold resolveName
  rcases hl : lookupKey key specialCases with _ | v
  · exact cleanStr_pascalCase key h
  · exact lookupKey_val_clean cleanStr key specialCases v (by decide) hl

theorem cleanFields_indexFieldsFrom : ∀ (xs : List JsVal) (i : Nat),
    cleanList xs = true → cleanFields (indexFieldsFrom i xs) = true := by
  intro xs
  induction xs with
  | nil => intro i _; rfl
  | cons x r ih =>
    intro i h
    simp only [cleanList, Bool.and_eq_true] at h
    simp only [indexFieldsFrom, cleanFields, Bool.and_eq_true]
    exact ⟨⟨cleanStr_natDecStr i, h.1⟩, ih _ h.2⟩

theorem objFields_clean (v : JsVal) (fs : List (String × JsVal))
    (hv : cleanVal v = true) (h : objFields v = some fs) : cleanFields fs = true := by
  cases v <;> simp only [objFields] at h
  case vnull => simp at h
  case vundefined => simp at h
  case vstr s => simp at h
  case vbool b => cases h; rfl
  case vnum n => cases h; rfl
  case varr xs =>
    cases h
    exact cleanFields_indexFieldsFrom xs 0 (by simpa [cleanVal] using hv)
  case vobj gs => cases h; simpa [cleanVal] using hv
  case vexpr r =>
    cases h
    simp only [cleanVal] at hv
    simp only [cleanFields, hv, Bool.and_true, Bool.true_and]
    decide
  case vvalue w d =>
    cases h
    simp only [cleanVal, Bool.and_eq_true] at hv
    simp only [cleanFields, hv.2, Bool.and_true, Bool.true_and]
    decide

theorem callFields_clean (e : JsVal) (he : cleanVal e = true) :
    cleanFields (callFields e) = true := by
  cases e <;> simp only [callFields, cleanFields]
  case vobj fs => simpa [cleanVal] using he
  case vexpr r =>
    simp only [cleanVal] at he
    simp only [cleanFields, he, Bool.and_true, Bool.true_and]
    decide
  case vvalue w d =>
    simp only [cleanVal, Bool.and_eq_true] at he
    simp only [cleanFields, he.2, Bool.and_true, Bool.true_and]
    decide

theorem taskClean_letArgTask (fn key : String) (arg : JsVal) (h : cleanVal arg = true) :
    taskClean (letArgTask fn key arg) = true := by
  unfold letArgTask
  split_ifs with hc
  · cases arg <;> simpa [taskClean, cleanVal] using h
  · simpa [taskClean] using h

theorem eol_compact (st : PState) (h : st.compact = true) (s : String) : eol st s = s := by
  unfold eol
  rw [h]
  simp

theorem indent_compact (st : PState) (h : st.compact = true) (s : String) :
    indent st s = s := by
  unfold indent
  rw [h]
  simp

theorem arrDecide_compact (st : PState) (xs : List JsVal) (h : st.compact = true) :
    arrDecide st xs = st := by
  unfold arrDecide
  rw [h]
  simp

theorem callDecide_compact (st : PState) (o : POptions) (fs : List (String × JsVal))
    (h : st.compact = true) : callDecide st o fs = st := by
  unfold callDecide
  rw [h]
  simp

theorem applyMap_none (opts : POptions) (h : opts.map = none) (s : String)
    (path : List PathElem) : applyMap opts s path = s := by
  unfold applyMap
  rw [h]

theorem run_measure_of_some {n : Nat} (t : Task) (opts : POptions) (st : PState)
    {res : Option Out × PState} (h : run n t opts st = some res) :
    run (Task.measure t) t opts st = some res := by
  have h2 := run_adequate (Task.measure t) t opts st le_rfl
  rcases h3 : run (Task.measure t) t opts st with _ | res2
  · rw [h3] at h2; simp at h2
  · have h1 := run_mono (le_max_left n (Task.measure t)) t opts st res h
    have h4 := run_mono (le_max_right n (Task.measure t)) t opts st res2 h3
    rw [h1] at h4
    cases h4
    rfl

theorem runStr_of_run {n : Nat} {t : Task} {opts : POptions} {st : PState} {r : String}
    {st2 : PState} (h : run n t opts st = some (some (.str r), st2)) :
    runStr t opts st = (some r, st) := by
  have hm := run_measure_of_some t opts st h
  obtain ⟨heq, -⟩ := run_some_spec n t opts st _ _ h
  unfold runStr
  rw [hm]
  rw [heq]

/-- In forced-compact state with the identity map hook, a successful render of
clean input produces clean output: no line breaks, no indentation markers. -/
theorem run_clean :
    ∀ fuel t opts st r st2, st.compact = true → opts.map = none →
      taskClean t = true → run fuel t opts st = some (some r, st2) →
      outClean r = true := by
  intro fuel
  induction fuel with
  | zero => intro t opts st r st2 _ _ _ h; simp [run] at h
  | succ n ih =>
    intro t opts st r st2 hcompact hmap hclean h
    cases t with
    | tExpr e =>
      cases e with
      | vvalue v d =>
        rw [run_expr_value] at h
        simp only [Option.some.injEq, Prod.mk.injEq] at h
        rw [← h.1]
        simp only [outClean]
        simp only [taskClean, cleanVal, Bool.and_eq_true] at hclean
        exact hclean.1
      | vexpr r0 =>
        rw [run_expr_wrap] at h
        exact ih _ opts st r st2 hcompact hmap (by simpa [taskClean, cleanVal] using hclean) h
      | vnull =>
        rw [run_expr_null] at h
        exact ih _ opts st r st2 hcompact hmap (by decide) h
      | vundefined =>
        rw [run_expr_undefined] at h
        exact ih _ opts st r st2 hcompact hmap (by decide) h
      | vbool b =>
        rw [run_expr_bool] at h
        exact ih _ opts st r st2 hcompact hmap (by cases b <;> decide) h
      | vnum m =>
        rw [run_expr_num] at h
        exact ih _ opts st r st2 hcompact hmap (by simp [taskClean, cleanVal]) h
      | vstr s =>
        rw [run_expr_str] at h
        exact ih _ opts st r st2 hcompact hmap (by simpa [taskClean, cleanVal] using hclean) h
      | varr xs =>
        rw [run_expr_arr] at h
        exact ih _ opts st r st2 hcompact hmap (by simpa [taskClean, cleanVal] using hclean) h
      | vobj fs =>
        rw [run_expr_obj] at h
        exact ih _ opts st r st2 hcompact hmap (by simpa [taskClean, cleanVal] using hclean) h
    | tCore e =>
      cases e with
      | vnull =>
        rw [run_core_null] at h
        simp only [Option.some.injEq, Prod.mk.injEq] at h
        rw [← h.1]
        decide
      | vundefined =>
        rw [run_core_undefined] at h
        simp only [Option.some.injEq, Prod.mk.injEq] at h
        rw [← h.1]
        decide
      | vbool b =>
        rw [run_core_bool] at h
        simp only [Option.some.injEq, Prod.mk.injEq] at h
        rw [← h.1]
        cases b <;> decide
      | vnum m =>
        rw [run_core_num] at h
        simp only [Option.some.injEq, Prod.mk.injEq] at h
        rw [← h.1]
        simp only [outClean]
        exact cleanStr_intToString m
      | vstr s =>
        rw [run_core_str] at h
        simp only [Option.some.injEq, Prod.mk.injEq] at h
        rw [← h.1]
        simp only [outClean]
        exact cleanStr_jsonQuote s (by simpa [taskClean, cleanVal] using hclean)
      | vexpr r0 =>
        rw [run_core_wrap] at h
        exact ih _ opts st r st2 hcompact hmap (by simpa [taskClean, cleanVal] using hclean) h
      | vvalue v d =>
        rw [run_core_value] at h
        exact ih _ opts st r st2 hcompact hmap (by simpa [taskClean, cleanVal] using hclean) h
      | vobj fs =>
        rw [run_core_obj] at h
        have hfs : cleanFields fs = true := by simpa [taskClean, cleanVal] using hclean
        rcases hlk : lookupKey "object" fs with _ | v
        all_goals rw [hlk] at h
        all_goals dsimp only at h
        · exact ih _ opts st r st2 hcompact hmap (by simpa [taskClean, cleanVal] using hclean) h
        · exact ih _ opts st r st2 hcompact hmap
            (by simpa [taskClean] using lookupKey_clean "object" fs v hfs hlk) h
      | varr xs =>
        cases xs with
        | nil =>
          rw [run_core_arr_nil] at h
          simp only [Option.some.injEq, Prod.mk.injEq] at h
          rw [← h.1]
          decide
        | cons x rest =>
          rw [run_core_arr_cons] at h
          rw [arrDecide_compact st (x :: rest) hcompact] at h
          rcases h1 : run n (.tArrElems (x :: rest) 0 (x :: rest).length) opts
              (incDepth st) with _ | ⟨ro, st3⟩
          · rw [h1] at h; exact absurd h (by simp)
          · rw [h1] at h
            rcases ro with _ | out
            · exact absurd h (by simp)
            · rcases out with body | l
              · dsimp only at h
                simp only [Option.some.injEq, Prod.mk.injEq] at h
                obtain ⟨hst3, -⟩ := run_some_spec n _ opts _ _ _ h1
                have hbody := ih _ opts (incDepth st) _ _
                  (by rw [incDepth_compact]; exact hcompact) hmap
                  (by simpa [taskClean, cleanVal] using hclean) h1
                simp only [outClean] at hbody
                have hc3 : (decDepth st3).compact = true := by
                  rw [hst3, decDepth_compact, incDepth_compact]; exact hcompact
                rw [← h.1]
                simp only [outClean]
                rw [eol_compact st hcompact, indent_compact _ hc3,
                  cleanStr_append, cleanStr_append, hbody]
                decide
              · exact absurd h (by simp)
    | tCall e =>
      rw [run_call] at h
      rcases hcf : callFields e with _ | ⟨⟨k0, p0⟩, rest⟩
      · rw [hcf] at h
        dsimp only at h
        exact absurd h (by simp)
      · rw [hcf] at h
        dsimp only at h
        rw [callDecide_compact st opts ((k0, p0) :: rest) hcompact] at h
        have hfields : cleanFields ((k0, p0) :: rest) = true := by
          have := callFields_clean e (by simpa [taskClean] using hclean)
          rwa [hcf] at this
        have hk0 : cleanStr k0 = true := by
          simp only [cleanFields, Bool.and_eq_true] at hfields
          exact hfields.1.1
        rcases h1 : run n (.tArgs (resolveName k0) ((k0, p0) :: rest) 0
            ((k0, p0) :: rest).length) opts (incDepth st) with _ | ⟨ro, st3⟩
        · rw [h1] at h; exact absurd h (by simp)
        · rw [h1] at h
          rcases ro with _ | out
          · exact absurd h (by simp)
          · rcases out with s | args
            · exact absurd h (by simp)
            · dsimp only at h
              simp only [Option.some.injEq, Prod.mk.injEq] at h
              obtain ⟨hst3, -⟩ := run_some_spec n _ opts _ _ _ h1
              have hargs := ih _ opts (incDepth st) _ _
                (by rw [incDepth_compact]; exact hcompact) hmap
                (by simpa [taskClean] using hfields) h1
              simp only [outClean] at hargs
              have hc3 : (decDepth st3).compact = true := by
                rw [hst3, decDepth_compact, incDepth_compact]; exact hcompact
              have hargs2 : ((if shouldReverseArgs (resolveName k0) then args.reverse
                  else args).all cleanStr) = true := by
                split_ifs
                · simpa [List.all_reverse] using hargs
                · exact hargs
              rw [← h.1]
              simp only [outClean]
              rw [eol_compact _ hc3, indent_compact _ hc3, cleanStr_append,
                cleanStr_append, cleanStr_append, cleanStr_resolveName k0 hk0,
                cleanStr_join _ hargs2]
              decide
    | tArgs fn fs i len =>
      cases fs with
      | nil =>
        rw [run_args_nil] at h
        simp only [Option.some.injEq, Prod.mk.injEq] at h
        rw [← h.1]
        decide
      | cons p rest =>
        obtain ⟨key, arg⟩ := p
        rw [run_args_cons] at h
        simp only [taskClean, cleanFields, Bool.and_eq_true] at hclean
        obtain ⟨⟨hkey, harg⟩, hrest⟩ := hclean
        rcases h1 : run n (letArgTask fn key arg) opts (pushKey st key) with _ | ⟨ro2, st2x⟩
        · rw [h1] at h; exact absurd h (by simp)
        · rw [h1] at h
          rcases ro2 with _ | out
          · exact absurd h (by simp)
          · rcases out with v0 | l
            · dsimp only at h
              obtain ⟨hst2x, -⟩ := run_some_spec n _ opts _ _ _ h1
              have hcpop : (popKey st2x).compact = true := by
                rw [popKey_compact, hst2x, pushKey_compact]; exact hcompact
              have hv0 := ih _ opts (pushKey st key) _ _
                (by rw [pushKey_compact]; exact hcompact) hmap
                (taskClean_letArgTask fn key arg harg) h1
              simp only [outClean] at hv0
              rcases h2 : run n (.tArgs fn rest (i + 1) len) opts (popKey st2x) with
                _ | ⟨ro4, st4⟩
              · rw [h2] at h; exact absurd h (by simp)
              · rw [h2] at h
                rcases ro4 with _ | out2
                · exact absurd h (by simp)
                · rcases out2 with s | pieces
                  · exact absurd h (by simp)
                  · dsimp only at h
                    simp only [Option.some.injEq, Prod.mk.injEq] at h
                    have hpieces := ih _ opts (popKey st2x) _ _ hcpop hmap
                      (by simpa [taskClean] using hrest) h2
                    simp only [outClean] at hpieces
                    have hsep : cleanStr (if st2x.compact && i == len - 1 then ""
                        else eol (popKey st2x) ",") = true := by
                      split_ifs
                      · decide
                      · rw [eol_compact _ hcpop]; decide
                    rw [← h.1]
                    simp only [outClean, List.all_cons]
                    rw [cleanStr_append, applyMap_none opts hmap,
                      indent_compact _ hcpop, hv0, hsep, hpieces]
                    decide
            · exact absurd h (by simp)
    | tObj v =>
      rw [run_obj] at h
      rcases hof : objFields v with _ | ⟨_ | ⟨f0, fs1⟩⟩
      · rw [hof] at h
        dsimp only at h
        exact absurd h (by simp)
      · rw [hof] at h
        dsimp only at h
        simp only [Option.some.injEq, Prod.mk.injEq] at h
        rw [← h.1]
        decide
      · rw [hof] at h
        dsimp only at h
        have hfs : cleanFields (f0 :: fs1) = true :=
          objFields_clean v _ (by simpa [taskClean] using hclean) hof
        rcases h1 : run n (.tObjElems (f0 :: fs1) 0 (f0 :: fs1).length) opts
            (incDepth st) with _ | ⟨ro, st2x⟩
        · rw [h1] at h; exact absurd h (by simp)
        · rw [h1] at h
          rcases ro with _ | out
          · exact absurd h (by simp)
          · rcases out with body | l
            · dsimp only at h
              simp only [Option.some.injEq, Prod.mk.injEq] at h
              obtain ⟨hst2x, -⟩ := run_some_spec n _ opts _ _ _ h1
              have hbody := ih _ opts (incDepth st) _ _
                (by rw [incDepth_compact]; exact hcompact) hmap
                (by simpa [taskClean] using hfs) h1
              simp only [outClean] at hbody
              have hc2 : (decDepth st2x).compact = true := by
                rw [hst2x, decDepth_compact, incDepth_compact]; exact hcompact
              rw [← h.1]
              simp only [outClean]
              rw [eol_compact st hcompact, indent_compact _ hc2,
                cleanStr_append, cleanStr_append, hbody]
              decide
            · exact absurd h (by simp)
    | tObjElems fs i len =>
      cases fs with
      | nil =>
        rw [run_objElems_nil] at h
        simp only [Option.some.injEq, Prod.mk.injEq] at h
        rw [← h.1]
        decide
      | cons p rest =>
        obtain ⟨key, w⟩ := p
        rw [run_objElems_cons] at h
        simp only [taskClean, cleanFields, Bool.and_eq_true] at hclean
        obtain ⟨⟨hkey, hw⟩, hrest⟩ := hclean
        rcases h1 : run n (.tExpr w) opts (pushKey st key) with _ | ⟨ro2, st2x⟩
        · rw [h1] at h; exact absurd h (by simp)
        · rw [h1] at h
          rcases ro2 with _ | out
          · exact absurd h (by simp)
          · rcases out with v0 | l
            · dsimp only at h
              obtain ⟨hst2x, -⟩ := run_some_spec n _ opts _ _ _ h1
              have hcpop : (popKey st2x).compact = true := by
                rw [popKey_compact, hst2x, pushKey_compact]; exact hcompact
              have hc2x : st2x.compact = true := by
                rw [hst2x, pushKey_compact]; exact hcompact
              have hv0 := ih _ opts (pushKey st key) _ _
                (by rw [pushKey_compact]; exact hcompact) hmap
                (by simpa [taskClean] using hw) h1
              simp only [outClean] at hv0
              rcases h2 : run n (.tObjElems rest (i + 1) len) opts (popKey st2x) with
                _ | ⟨ro4, st4⟩
              · rw [h2] at h; exact absurd h (by simp)
              · rw [h2] at h
                rcases ro4 with _ | out2
                · exact absurd h (by simp)
                · rcases out2 with restStr | l2
                  · dsimp only at h
                    simp only [Option.some.injEq, Prod.mk.injEq] at h
                    have hrestStr := ih _ opts (popKey st2x) _ _ hcpop hmap
                      (by simpa [taskClean] using hrest) h2
                    simp only [outClean] at hrestStr
                    have hsep : cleanStr (if st2x.compact && i == len - 1 then ""
                        else eol (popKey st2x) ",") = true := by
                      split_ifs
                      · decide
                      · rw [eol_compact _ hcpop]; decide
                    have hspace : cleanStr (if st2x.compact then "" else " ") = true := by
                      split_ifs <;> decide
                    rw [← h.1]
                    simp only [outClean]
                    rw [cleanStr_append, cleanStr_append, applyMap_none opts hmap,
                      indent_compact _ hcpop, cleanStr_append, cleanStr_append,
                      cleanStr_append, hkey, hspace, hv0, hsep, hrestStr]
                    decide
                  · exact absurd h (by simp)
            · exact absurd h (by simp)
    | tArrElems xs i len =>
      cases xs with
      | nil =>
        rw [run_arrElems_nil] at h
        simp only [Option.some.injEq, Prod.mk.injEq] at h
        rw [← h.1]
        decide
      | cons x rest =>
        rw [run_arrElems_cons] at h
        simp only [taskClean, cleanList, Bool.and_eq_true] at hclean
        obtain ⟨hx, hrest⟩ := hclean
        rcases h1 : run n (.tExpr x) opts (pushIdx st i) with _ | ⟨ro2, st2x⟩
        · rw [h1] at h; exact absurd h (by simp)
        · rw [h1] at h
          rcases ro2 with _ | out
          · exact absurd h (by simp)
          · rcases out with v0 | l
            · dsimp only at h
              obtain ⟨hst2x, -⟩ := run_some_spec n _ opts _ _ _ h1
              have hcpop : (popKey st2x).compact = true := by
                rw [popKey_compact, hst2x, pushIdx_compact]; exact hcompact
              have hv0 := ih _ opts (pushIdx st i) _ _
                (by rw [pushIdx_compact]; exact hcompact) hmap
                (by simpa [taskClean] using hx) h1
              simp only [outClean] at hv0
              rcases h2 : run n (.tArrElems rest (i + 1) len) opts (popKey st2x) with
                _ | ⟨ro4, st4⟩
              · rw [h2] at h; exact absurd h (by simp)
              · rw [h2] at h
                rcases ro4 with _ | out2
                · exact absurd h (by simp)
                · rcases out2 with restStr | l2
                  · dsimp only at h
                    simp only [Option.some.injEq, Prod.mk.injEq] at h
                    have hrestStr := ih _ opts (popKey st2x) _ _ hcpop hmap
                      (by simpa [taskClean] using hrest) h2
                    simp only [outClean] at hrestStr
                    have hsep : cleanStr (if st2x.compact && i == len - 1 then ""
                        else eol (popKey st2x) ",") = true := by
                      split_ifs
                      · decide
                      · rw [eol_compact _ hcpop]; decide
                    rw [← h.1]
                    simp only [outClean]
                    rw [cleanStr_append, cleanStr_append, applyMap_none opts hmap,
                      indent_compact _ hcpop, hv0, hsep, hrestStr]
                    decide
                  · exact absurd h (by simp)
            · exact absurd h (by simp)
    | tLetArr ys =>
      cases ys with
      | nil =>
        rw [run_letArr_nil] at h
        simp only [Option.some.injEq, Prod.mk.injEq] at h
        rw [← h.1]
        decide
      | cons y rest =>
        rw [run_letArr_cons] at h
        rcases h1 : run n (.tLetElems (y :: rest) 0 (y :: rest).length) opts
            (incDepth st) with _ | ⟨ro, st2x⟩
        · rw [h1] at h; exact absurd h (by simp)
        · rw [h1] at h
          rcases ro with _ | out
          · exact absurd h (by simp)
          · rcases out with body | l
            · dsimp only at h
              simp only [Option.some.injEq, Prod.mk.injEq] at h
              obtain ⟨hst2x, -⟩ := run_some_spec n _ opts _ _ _ h1
              have hbody := ih _ opts (incDepth st) _ _
                (by rw [incDepth_compact]; exact hcompact) hmap
                (by simpa [taskClean] using hclean) h1
              simp only [outClean] at hbody
              have hc2 : (decDepth st2x).compact = true := by
                rw [hst2x, decDepth_compact, incDepth_compact]; exact hcompact
              rw [← h.1]
              simp only [outClean]
              rw [eol_compact st hcompact, indent_compact _ hc2,
                cleanStr_append, cleanStr_append, hbody]
              decide
            · exact absurd h (by simp)
    | tLetElems ys i len =>
      cases ys with
      | nil =>
        rw [run_letElems_nil] at h
        simp only [Option.some.injEq, Prod.mk.injEq] at h
        rw [← h.1]
        decide
      | cons y rest =>
        rw [run_letElems_cons] at h
        simp only [taskClean, cleanList, Bool.and_eq_true] at hclean
        obtain ⟨hy, hrest⟩ := hclean
        rcases h1 : run n (.tObj y) opts (pushIdx st i) with _ | ⟨ro2, st2x⟩
        · rw [h1] at h; exact absurd h (by simp)
        · rw [h1] at h
          rcases ro2 with _ | out
          · exact absurd h (by simp)
          · rcases out with v0 | l
            · dsimp only at h
              obtain ⟨hst2x, -⟩ := run_some_spec n _ opts _ _ _ h1
              have hcpop : (popKey st2x).compact = true := by
                rw [popKey_compact, hst2x, pushIdx_compact]; exact hcompact
              have hv0 := ih _ opts (pushIdx st i) _ _
                (by rw [pushIdx_compact]; exact hcompact) hmap
                (by simpa [taskClean] using hy) h1
              simp only [outClean] at hv0
              rcases h2 : run n (.tLetElems rest (i + 1) len) opts (popKey st2x) with
                _ | ⟨ro4, st4⟩
              · rw [h2] at h; exact absurd h (by simp)
              · rw [h2] at h
                rcases ro4 with _ | out2
                · exact absurd h (by simp)
                · rcases out2 with restStr | l2
                  · dsimp only at h
                    simp only [Option.some.injEq, Prod.mk.injEq] at h
                    have hrestStr := ih _ opts (popKey st2x) _ _ hcpop hmap
                      (by simpa [taskClean] using hrest) h2
                    simp only [outClean] at hrestStr
                    have hsep : cleanStr (if st2x.compact && i == len - 1 then ""
                        else eol (popKey st2x) ",") = true := by
                      split_ifs
                      · decide
                      · rw [eol_compact _ hcpop]; decide
                    rw [← h.1]
                    simp only [outClean]
                    rw [cleanStr_append, cleanStr_append, applyMap_none opts hmap,
                      indent_compact _ hcpop, hv0, hsep, hrestStr]
                    decide
                  · exact absurd h (by simp)
            · exact absurd h (by simp)

theorem strFoldl_append : ∀ (l : List String) (x : String),
    l.foldl (fun r s => r ++ s) x = x ++ l.foldl (fun r s => r ++ s) "" := by
  intro l
  induction l with
  | nil => intro x; exact (String.append_empty x).symm
  | cons s rest ih =>
    intro x
    show rest.foldl _ (x ++ s) = x ++ rest.foldl _ ("" ++ s)
    rw [ih (x ++ s), ih ("" ++ s)]
    simp [String.append_assoc]

theorem strJoin_cons (a : String) (l : List String) :
    String.join (a :: l) = a ++ String.join l := by
  show List.foldl (fun r s => r ++ s) ("" ++ a) l = a ++ String.join l
  rw [strFoldl_append l ("" ++ a)]
  rfl

/-- `indent` as an explicit prefix. -/
theorem indent_eq (st : PState) (s : String) :
    indent st s = (if st.compact then "" else indentMarker st.printDepth) ++ s := by
  unfold indent
  split_ifs <;> rfl

theorem shouldReverseArgs_ne_let (fn : String) (h : shouldReverseArgs fn = true) :
    (fn == "Let") = false := by
  simp only [shouldReverseArgs, Bool.or_eq_true, beq_iff_eq] at h
  rcases h with (h | h) | h <;> subst h <;> decide

theorem letArgTask_not_let (fn key : String) (arg : JsVal)
    (h : (fn == "Let") = false) : letArgTask fn key arg = .tExpr arg := by
  unfold letArgTask
  rw [h]
  simp

/-- Decomposition of a successful two-argument call render: both arguments
render successfully under the pushed key, and the output is the display name,
the two rendered pieces (reversed for the reversal set), and the closer. -/
theorem call_pair_decomp (n : Nat) (ka kb : String) (X Y : JsVal) (opts : POptions)
    (st : PState) (s : String) (st2 : PState)
    (hmap : opts.map = none)
    (hobj : lookupKey "object" [(ka, X), (kb, Y)] = none)
    (h : run n (.tExpr (.vexpr (.vobj [(ka, X), (kb, Y)]))) opts st =
      some (some (.str s), st2)) :
    ∃ stC rX rY sepX sepY,
      stC = callDecide st opts [(ka, X), (kb, Y)] ∧
      runStr (letArgTask (resolveName ka) ka X) opts (pushKey (incDepth stC) ka) =
        (some rX, pushKey (incDepth stC) ka) ∧
      runStr (letArgTask (resolveName ka) kb Y) opts (pushKey (incDepth stC) kb) =
        (some rY, pushKey (incDepth stC) kb) ∧
      s = eol stC (resolveName ka ++ "(") ++
          String.join (if shouldReverseArgs (resolveName ka) then
            [indent (incDepth stC) rY ++ sepY, indent (incDepth stC) rX ++ sepX]
          else
            [indent (incDepth stC) rX ++ sepX, indent (incDepth stC) rY ++ sepY]) ++
          indent stC ")" ∧
      st2 = st := by
  cases n with
  | zero => rw [run_zero] at h; exact absurd h (by simp)
  | succ n1 =>
  rw [run_expr_wrap] at h
  cases n1 with
  | zero => rw [run_zero] at h; exact absurd h (by simp)
  | succ n2 =>
  rw [run_core_obj] at h
  rw [hobj] at h
  dsimp only at h
  cases n2 with
  | zero => rw [run_zero] at h; exact absurd h (by simp)
  | succ n3 =>
  rw [run_call] at h
  dsimp only [callFields] at h
  rcases h1 : run n3 (.tArgs (resolveName ka) [(ka, X), (kb, Y)] 0
      [(ka, X), (kb, Y)].length) opts
      (incDepth (callDecide st opts [(ka, X), (kb, Y)])) with _ | ⟨ro, st3⟩
  · rw [h1] at h; exact absurd h (by simp)
  · rw [h1] at h
    rcases ro with _ | out
    · exact absurd h (by simp)
    · rcases out with s0 | args
      · exact absurd h (by simp)
      · dsimp only at h
        simp only [Option.some.injEq, Prod.mk.injEq, Out.str.injEq] at h
        obtain ⟨hs, hst2⟩ := h
        obtain ⟨hst3, -⟩ := run_some_spec n3 _ opts _ _ _ h1
        subst hst3
        -- peel the first argument
        cases n3 with
        | zero => rw [run_zero] at h1; exact absurd h1 (by simp)
        | succ n4 =>
        rw [run_args_cons] at h1
        rcases hX : run n4 (letArgTask (resolveName ka) ka X) opts
            (pushKey (incDepth (callDecide st opts [(ka, X), (kb, Y)])) ka) with
          _ | ⟨ro2, stA⟩
        · rw [hX] at h1; exact absurd h1 (by simp)
        · rw [hX] at h1
          rcases ro2 with _ | outX
          · exact absurd h1 (by simp)
          · rcases outX with rX | l
            · dsimp only at h1
              obtain ⟨hstA, -⟩ := run_some_spec n4 _ opts _ _ _ hX
              subst hstA
              rw [popKey_pushKey] at h1
              -- peel the second argument
              rcases hY : run n4 (.tArgs (resolveName ka) [(kb, Y)] (0 + 1)
                  [(ka, X), (kb, Y)].length) opts
                  (incDepth (callDecide st opts [(ka, X), (kb, Y)])) with _ | ⟨ro3, stB⟩
              · rw [hY] at h1; exact absurd h1 (by simp)
              · rw [hY] at h1
                rcases ro3 with _ | outY
                · exact absurd h1 (by simp)
                · rcases outY with s1 | pieces
                  · exact absurd h1 (by simp)
                  · dsimp only at h1
                    simp only [Option.some.injEq, Prod.mk.injEq, Out.list.injEq] at h1
                    obtain ⟨hpieces, -⟩ := h1
                    cases n4 with
                    | zero => rw [run_zero] at hY; exact absurd hY (by simp)
                    | succ n5 =>
                    rw [run_args_cons] at hY
                    rcases hY2 : run n5 (letArgTask (resolveName ka) kb Y) opts
                        (pushKey (incDepth (callDecide st opts [(ka, X), (kb, Y)])) kb)
                        with _ | ⟨ro4, stC2⟩
                    · rw [hY2] at hY; exact absurd hY (by simp)
                    · rw [hY2] at hY
                      rcases ro4 with _ | outY2
                      · exact absurd hY (by simp)
                      · rcases outY2 with rY | l2
                        · dsimp only at hY
                          obtain ⟨hstC2, -⟩ := run_some_spec n5 _ opts _ _ _ hY2
                          subst hstC2
                          rw [popKey_pushKey] at hY
                          rcases hNil : run n5 (.tArgs (resolveName ka) [] (0 + 1 + 1)
                              [(ka, X), (kb, Y)].length) opts
                              (incDepth (callDecide st opts [(ka, X), (kb, Y)])) with
                            _ | ⟨ro5, stD⟩
                          · rw [hNil] at hY; exact absurd hY (by simp)
                          · rw [hNil] at hY
                            rcases ro5 with _ | outN
                            · exact absurd hY (by simp)
                            · rcases outN with s2' | piecesN
                              · exact absurd hY (by simp)
                              · cases n5 with
                                | zero => rw [run_zero] at hNil; exact absurd hNil (by simp)
                                | succ n6 =>
                                rw [run_args_nil] at hNil
                                simp only [Option.some.injEq, Prod.mk.injEq,
                                  Out.list.injEq] at hNil
                                obtain ⟨hN, -⟩ := hNil
                                subst hN
                                dsimp only at hY
                                simp only [Option.some.injEq, Prod.mk.injEq,
                                  Out.list.injEq] at hY
                                obtain ⟨hY3, -⟩ := hY
                                have hst2x : st2 = st := by
                                  rw [← hst2, decDepth_incDepth, setCompact_callDecide]
                                refine ⟨callDecide st opts [(ka, X), (kb, Y)], rX, rY,
                                  (if (pushKey (incDepth (callDecide st opts
                                        [(ka, X), (kb, Y)])) ka).compact &&
                                      ((0 : Nat) == [(ka, X), (kb, Y)].length - 1) then ""
                                    else eol (incDepth (callDecide st opts
                                      [(ka, X), (kb, Y)])) ","),
                                  (if (pushKey (incDepth (callDecide st opts
                                        [(ka, X), (kb, Y)])) kb).compact &&
                                      (0 + 1 == [(ka, X), (kb, Y)].length - 1) then ""
                                    else eol (incDepth (callDecide st opts
                                      [(ka, X), (kb, Y)])) ","),
                                  rfl, runStr_of_run hX, runStr_of_run hY2,
                                  ?_, hst2x⟩
                                rw [← hs, decDepth_incDepth, ← hpieces, ← hY3]
                                rw [applyMap_none opts hmap, applyMap_none opts hmap]
                                split_ifs <;> simp
                        · exact absurd hY (by simp)
            · exact absurd h1 (by simp)

/-- With the `compact` option set, the call branch itself produces clean
(single-line) output regardless of the ambient flag: the decision
`opts.compact || ...` forces the compact flag for the whole call. -/
theorem run_call_compact_clean (n : Nat) (e : JsVal) (opts : POptions) (st : PState)
    (s : String) (st2 : PState)
    (hoc : opts.compact = true) (hmap : opts.map = none) (hclean : cleanVal e = true)
    (h : run n (.tCall e) opts st = some (some (.str s), st2)) :
    cleanStr s = true := by
  cases n with
  | zero => rw [run_zero] at h; exact absurd h (by simp)
  | succ n1 =>
    rw [run_call] at h
    rcases hcf : callFields e with _ | ⟨⟨k0, p0⟩, rest⟩
    · rw [hcf] at h
      dsimp only at h
      exact absurd h (by simp)
    · rw [hcf] at h
      dsimp only at h
      have hfields : cleanFields ((k0, p0) :: rest) = true := by
        have := callFields_clean e hclean
        rwa [hcf] at this
      have hk0 : cleanStr k0 = true := by
        simp only [cleanFields, Bool.and_eq_true] at hfields
        exact hfields.1.1
      have hCc : (callDecide st opts ((k0, p0) :: rest)).compact = true := by
        unfold callDecide
        split_ifs with hsc
        · exact hsc
        · rw [setCompact_compact, hoc]
          rfl
      rcases h1 : run n1 (.tArgs (resolveName k0) ((k0, p0) :: rest) 0
          ((k0, p0) :: rest).length) opts
          (incDepth (callDecide st opts ((k0, p0) :: rest))) with _ | ⟨ro, st3⟩
      · rw [h1] at h; exact absurd h (by simp)
      · rw [h1] at h
        rcases ro with _ | out
        · exact absurd h (by simp)
        · rcases out with s0 | args
          · exact absurd h (by simp)
          · dsimp only at h
            simp only [Option.some.injEq, Prod.mk.injEq, Out.str.injEq] at h
            obtain ⟨hs, -⟩ := h
            obtain ⟨hst3, -⟩ := run_some_spec n1 _ opts _ _ _ h1
            have hargs := run_clean n1 _ opts _ _ _
              (by rw [incDepth_compact]; exact hCc) hmap
              (by simpa [taskClean] using hfields) h1
            simp only [outClean] at hargs
            have hc3 : (decDepth st3).compact = true := by
              rw [hst3, decDepth_compact, incDepth_compact]; exact hCc
            have hargs2 : ((if shouldReverseArgs (resolveName k0) then args.reverse
                else args).all cleanStr) = true := by
              split_ifs
              · simpa [List.all_reverse] using hargs
              · exact hargs
            rw [← hs]
            rw [eol_compact _ hc3, indent_compact _ hc3, cleanStr_append,
              cleanStr_append, cleanStr_append, cleanStr_resolveName k0 hk0,
              cleanStr_join _ hargs2]
            decide

/-- A successful `exprToString` is a successful `run` at the adequate fuel. -/
theorem exprToString_run (e : JsVal) (opts : POptions) (st : PState) (s : String)
    (st2 : PState) (h : exprToString e opts st = (some s, st2)) :
    run (Task.measure (.tExpr e)) (.tExpr e) opts st = some (some (.str s), st2) := by
  unfold exprToString runStr at h
  rcases hrun : run (Task.measure (.tExpr e)) (.tExpr e) opts st with _ | ⟨ro, stf⟩
  · rw [hrun] at h
    exact absurd h (by simp)
  · rw [hrun] at h
    rcases ro with _ | out
    · dsimp only at h
      exact absurd h (by simp)
    · rcases out with s0 | l
      · dsimp only at h
        simp only [Prod.mk.injEq, Option.some.injEq] at h
        obtain ⟨rfl, rfl⟩ := h
        rfl
      · dsimp only at h
        exact absurd h (by simp)

/-! ### The claims -/

/-- C1: corrected. When no ancestor forced compact mode, a composite node's
compactness is decided by `isCompact` over its immediate children — but
`isCompact` holds of ANY non-`Expr` value (nested arrays and records
included), and the call branch additionally ORs in `options.compact`; the
spec's "simple = leaf scalar, not a nested composite" is not the
implemented predicate. -/
theorem c1_compactness_decided_by_isCompact (st : PState) (opts : POptions)
    (xs : List JsVal) (fs : List (String × JsVal)) (h : st.compact = false) :
    arrDecide st xs = setCompact st (xs.all isCompact) ∧
    callDecide st opts fs =
      setCompact st (opts.compact || fs.all fun p => isCompact p.2) := by
  unfold arrDecide callDecide
  rw [h]
  simp

/-- C1 witness: the decision equalities at a concrete non-forced state. -/
theorem c1_compactness_witness :
    arrDecide initState [JsVal.varr [JsVal.vnum 1]] =
      setCompact initState ([JsVal.varr [JsVal.vnum 1]].all isCompact) ∧
    callDecide initState defaultOptions [("add", JsVal.vnum 1)] =
      setCompact initState (defaultOptions.compact ||
        [("add", JsVal.vnum 1)].all fun p => isCompact p.2) :=
  c1_compactness_decided_by_isCompact initState defaultOptions
    [JsVal.varr [JsVal.vnum 1]] [("add", JsVal.vnum 1)] rfl

/-- C1 counterexample: the value `[1]` is a nested composite — not "simple"
in the spec's sense (`specSimple`, modelled from the spec, is false on it) —
yet the source's `isCompact` counts it compact, so `[[1]]` renders on a
single line. -/
theorem c1_nested_composite_counted_simple :
    isCompact (JsVal.varr [JsVal.vnum 1]) = true ∧
    specSimple (JsVal.varr [JsVal.vnum 1]) = false ∧
    (exprToString (JsVal.varr [JsVal.varr [JsVal.vnum 1]]) defaultOptions initState).1 =
      some "[[1]]" := ⟨rfl, rfl, rfl⟩

/-- C2: corrected. Rendering is total on inputs accepted by `renderOk` (it
returns a string and restores the state), but not on every input: a record
with zero own keys makes `keys[0].split` throw a `TypeError`, so the spec's
"every input normalizes to some string" is wrong. -/
theorem c2_renderOk_total (e : JsVal) (opts : POptions) (st : PState)
    (h : renderOk e = true) :
    ∃ s, exprToString e opts st = (some s, st) := by
  obtain ⟨r, st2, hr⟩ := run_ok (Task.measure (.tExpr e)) (.tExpr e) opts st le_rfl
    (by simpa [taskOk] using h)
  obtain ⟨hst, s, rfl⟩ := run_some_spec _ _ _ _ _ _ hr
  subst hst
  refine ⟨s, ?_⟩
  unfold exprToString runStr
  rw [hr]

/-- C2 witness: the `Add` call passes `renderOk` and renders to a string. -/
theorem c2_total_witness :
    ∃ s, exprToString
      (JsVal.vexpr (JsVal.vobj [("add", JsVal.varr [JsVal.vnum 1, JsVal.vnum 2])]))
      defaultOptions initState = (some s, initState) :=
  c2_renderOk_total _ defaultOptions initState (by
    simp [renderOk, coreOk, argsOk, letOk, objOk, objElemsOk, arrOk, arrObjOk,
      resolveName, lookupKey, specialCases, objFields])

/-- C2 counterexample: a `Call` record with zero own keys renders to no
string at all (the modelled `TypeError` of `keys[0].split`). -/
theorem c2_empty_record_raises :
    (exprToString (JsVal.vexpr (JsVal.vobj [])) defaultOptions initState).1 = none ∧
    renderOk (JsVal.vexpr (JsVal.vobj [])) = false :=
  ⟨rfl, by simp [renderOk, coreOk, lookupKey]⟩

/-- C3: confirmed. Name resolution returns the override-table entry on the
five table keys and PascalCase (split on underscore, upper-case each
segment's first character, inner characters verbatim) on every other key;
it is total by construction. -/
theorem c3_name_resolution :
    resolveName "is_nonempty" = "IsNonEmpty" ∧ resolveName "lt" = "LT" ∧
    resolveName "lte" = "LTE" ∧ resolveName "gt" = "GT" ∧ resolveName "gte" = "GTE" ∧
    resolveName "select_all" = "SelectAll" ∧
    ∀ key : String, lookupKey key specialCases = none →
      resolveName key = pascalCase key := by
  refine ⟨by decide, by decide, by decide, by decide, by decide, by decide, ?_⟩
  intro key hk
  unfold resolveName
  rw [hk]

/-- C3 witness: the fallback equation applied at a key outside the table. -/
theorem c3_resolution_witness :
    resolveName "select_all" = pascalCase "select_all" :=
  c3_name_resolution.2.2.2.2.2.2 "select_all" (by decide)

/-- C4: corrected for the call branch. For a call-shaped root (a record
without an `object` key), options `\x7bcompact := true\x7d` with the identity
map and clean input produce single-line output: no line break and no
indentation marker anywhere in the result. (The option is consulted only by
the call branch, so this is the most the option guarantees.) -/
theorem c4_compact_call_single_line (fs : List (String × JsVal)) (st : PState)
    (s : String) (st2 : PState)
    (hclean : cleanVal (JsVal.vobj fs) = true)
    (hobj : lookupKey "object" fs = none)
    (h : exprToString (.vexpr (.vobj fs)) { compact := true, map := none } st =
      (some s, st2)) :
    cleanStr s = true := by
  have hrun := exprToString_run _ _ _ _ _ h
  obtain ⟨m, hM⟩ : ∃ m, Task.measure (.tExpr (.vexpr (.vobj fs))) = m + 2 :=
    ⟨6 * JsVal.sizeFields fs + 15, by simp [Task.measure, JsVal.size]; omega⟩
  rw [hM, run_expr_wrap, run_core_obj, hobj] at hrun
  dsimp only at hrun
  exact run_call_compact_clean m _ _ _ _ _ rfl rfl hclean hrun

/-- C4 witness: the compact `Add` call renders single-line. -/
theorem c4_single_line_witness :
    exprToString (.vexpr (.vobj [("add", JsVal.varr [JsVal.vnum 1, JsVal.vnum 2])]))
        { compact := true, map := none } initState = (some "Add([1,2])", initState) ∧
    cleanStr "Add([1,2])" = true :=
  ⟨by decide, c4_compact_call_single_line
    [("add", JsVal.varr [JsVal.vnum 1, JsVal.vnum 2])] initState "Add([1,2])" initState
    (by decide) rfl (by decide)⟩

/-- C4 counterexample: the `compact` option is ignored for an array root —
the array branch never consults it — so the output keeps its line breaks:
the spec's "single-line from the root regardless of whether the root is a
sequence, an object literal, or a call" fails on a sequence root. -/
theorem c4_compact_option_ignored_for_array_root :
    (exprToString (JsVal.varr [JsVal.vexpr (JsVal.vnum 1)])
        { compact := true, map := none } initState).1 = some "[\n・ 1,\n]" ∧
    "[\n・ 1,\n]".data.contains '\n' = true := ⟨rfl, rfl⟩

/-- C5: corrected. The call `\x7badd: [1, 2]\x7d` renders as `Add([1,2])` in
both compact and default modes: the argument is the array value itself
(printed `[1,2]`), not an argument-per-element expansion, so neither the
spec's compact `Add(1,2)` nor its expanded multi-line form is produced. -/
theorem c5_add_actual_renderings :
    (exprToString (JsVal.vexpr (JsVal.vobj
        [("add", JsVal.varr [JsVal.vnum 1, JsVal.vnum 2])]))
      { compact := true, map := none } initState).1 = some "Add([1,2])" ∧
    (exprToString (JsVal.vexpr (JsVal.vobj
        [("add", JsVal.varr [JsVal.vnum 1, JsVal.vnum 2])]))
      defaultOptions initState).1 = some "Add([1,2])" := ⟨rfl, rfl⟩

/-- C5 counterexample: the rendering equals neither spec string (`Add(1,2)`
compact, nor the expanded form with `1,` and `2` on indented lines). -/
theorem c5_add_not_spec_strings :
    (exprToString (JsVal.vexpr (JsVal.vobj
        [("add", JsVal.varr [JsVal.vnum 1, JsVal.vnum 2])]))
      { compact := true, map := none } initState).1 ≠ some "Add(1,2)" ∧
    (exprToString (JsVal.vexpr (JsVal.vobj
        [("add", JsVal.varr [JsVal.vnum 1, JsVal.vnum 2])]))
      defaultOptions initState).1 ≠ some "Add(\n・ 1,\n・ 2\n)" := by
  constructor <;> decide

/-- C8: confirmed. A completed top-level render leaves the renderer state
exactly as it found it (the input tree is immutable in the embedding), so
re-rendering from the final state gives the identical output. -/
theorem c8_state_restoration (e : JsVal) (opts : POptions) (st : PState)
    (s : String) (st2 : PState)
    (h : exprToString e opts st = (some s, st2)) :
    st2 = st ∧ exprToString e opts st2 = (some s, st2) := by
  have hrun := exprToString_run _ _ _ _ _ h
  obtain ⟨hst, -⟩ := run_some_spec _ _ _ _ _ _ hrun
  subst hst
  exact ⟨rfl, h⟩

/-- C8 witness: state restoration on the `Add` call from the initial state. -/
theorem c8_restoration_witness :
    initState = initState ∧
    exprToString (JsVal.vexpr (JsVal.vobj
        [("add", JsVal.varr [JsVal.vnum 1, JsVal.vnum 2])]))
      defaultOptions initState = (some "Add([1,2])", initState) :=
  c8_state_restoration _ defaultOptions initState "Add([1,2])" initState (by decide)

/-- C9: corrected. The object literal `\x7bobject: \x7bx: 1, y: "z"\x7d\x7d`
renders in compact mode as `\x7bx:1,y:"z"\x7d` — no space after the colon
(`printObject` emits `':' + (compact ? '' : ' ')`) — not the spec's
`\x7bx: 1,y: "z"\x7d`; the expanded rendering keeps the space. -/
theorem c9_object_literal_renderings :
    (exprToString (JsVal.vexpr (JsVal.vobj [("object",
        JsVal.vobj [("x", JsVal.vnum 1), ("y", JsVal.vstr "z")])]))
      defaultOptions { initState with compact := true }).1 =
      some "\x7bx:1,y:\"z\"\x7d" ∧
    (exprToString (JsVal.vexpr (JsVal.vobj [("object",
        JsVal.vobj [("x", JsVal.vnum 1), ("y", JsVal.vstr "z")])]))
      defaultOptions initState).1 =
      some "\x7b\n・ x: 1,\n・ y: \"z\",\n\x7d" := ⟨rfl, rfl⟩

/-- C9 counterexample: the compact rendering is not the spec's string with a
space after each colon. -/
theorem c9_compact_colon_spacing :
    (exprToString (JsVal.vexpr (JsVal.vobj [("object",
        JsVal.vobj [("x", JsVal.vnum 1), ("y", JsVal.vstr "z")])]))
      defaultOptions { initState with compact := true }).1 ≠
      some "\x7bx: 1,y: \"z\"\x7d" := by decide

/-- C10: confirmed. `new Expr(obj).toJSON()` returns exactly the wrapped
object: `toJSON` reads back the `raw` field the constructor stored. -/
theorem c10_expr_toJSON_identity (obj : JsVal) : (Expr.mk obj).toJSON = obj := rfl

/-- C6: confirmed. For a two-key call `\x7ba: X, b: Y\x7d` (insertion order a
then b) whose display name resolved from the first key is in the reversal set
`Filter`/`Map`/`Foreach`, the assembled argument list is reversed before
joining: the output is the name, then Y's rendering, then X's rendering,
then the closer. -/
theorem c6_reversal_order (ka kb : String) (X Y : JsVal) (opts : POptions)
    (st : PState) (s : String) (st2 : PState)
    (hmap : opts.map = none)
    (hobj : lookupKey "object" [(ka, X), (kb, Y)] = none)
    (hrev : shouldReverseArgs (resolveName ka) = true)
    (h : exprToString (.vexpr (.vobj [(ka, X), (kb, Y)])) opts st = (some s, st2)) :
    ∃ rX rY s1 s2 s3,
      exprToString X opts
          (pushKey (incDepth (callDecide st opts [(ka, X), (kb, Y)])) ka) =
        (some rX, pushKey (incDepth (callDecide st opts [(ka, X), (kb, Y)])) ka) ∧
      exprToString Y opts
          (pushKey (incDepth (callDecide st opts [(ka, X), (kb, Y)])) kb) =
        (some rY, pushKey (incDepth (callDecide st opts [(ka, X), (kb, Y)])) kb) ∧
      s = s1 ++ rY ++ s2 ++ rX ++ s3 := by
  have hrun := exprToString_run _ _ _ _ _ h
  obtain ⟨stC, rX, rY, sepX, sepY, hstC, hX, hY, hsEq, -⟩ :=
    call_pair_decomp _ ka kb X Y opts st s st2 hmap hobj hrun
  subst hstC
  have hnl := shouldReverseArgs_ne_let _ hrev
  rw [letArgTask_not_let _ _ _ hnl] at hX hY
  have hX2 : exprToString X opts
      (pushKey (incDepth (callDecide st opts [(ka, X), (kb, Y)])) ka) =
      (some rX, pushKey (incDepth (callDecide st opts [(ka, X), (kb, Y)])) ka) := hX
  have hY2 : exprToString Y opts
      (pushKey (incDepth (callDecide st opts [(ka, X), (kb, Y)])) kb) =
      (some rY, pushKey (incDepth (callDecide st opts [(ka, X), (kb, Y)])) kb) := hY
  refine ⟨rX, rY,
    eol (callDecide st opts [(ka, X), (kb, Y)]) (resolveName ka ++ "(") ++
      (if (incDepth (callDecide st opts [(ka, X), (kb, Y)])).compact then ""
       else indentMarker (incDepth (callDecide st opts [(ka, X), (kb, Y)])).printDepth),
    sepY ++
      (if (incDepth (callDecide st opts [(ka, X), (kb, Y)])).compact then ""
       else indentMarker (incDepth (callDecide st opts [(ka, X), (kb, Y)])).printDepth),
    sepX ++ indent (callDecide st opts [(ka, X), (kb, Y)]) ")",
    hX2, hY2, ?_⟩
  rw [hsEq]
  have hjn : String.join ([] : List String) = "" := rfl
  simp [hrev, strJoin_cons, hjn, indent_eq, String.append_assoc, String.append_empty]

/-- C6 witness: `\x7bfilter: "f", collection: 3\x7d` resolves to `Filter`;
the collection's rendering (`3`) precedes the filter's (`"f"`). -/
theorem c6_reversal_witness :
    ∃ rX rY s1 s2 s3,
      exprToString (JsVal.vstr "f") defaultOptions
          (pushKey (incDepth (callDecide initState defaultOptions
            [("filter", JsVal.vstr "f"), ("collection", JsVal.vnum 3)])) "filter") =
        (some rX, pushKey (incDepth (callDecide initState defaultOptions
            [("filter", JsVal.vstr "f"), ("collection", JsVal.vnum 3)])) "filter") ∧
      exprToString (JsVal.vnum 3) defaultOptions
          (pushKey (incDepth (callDecide initState defaultOptions
            [("filter", JsVal.vstr "f"), ("collection", JsVal.vnum 3)])) "collection") =
        (some rY, pushKey (incDepth (callDecide initState defaultOptions
            [("filter", JsVal.vstr "f"), ("collection", JsVal.vnum 3)])) "collection") ∧
      "Filter(3\"f\",)" = s1 ++ rY ++ s2 ++ rX ++ s3 :=
  c6_reversal_order "filter" "collection" (JsVal.vstr "f") (JsVal.vnum 3)
    defaultOptions initState "Filter(3\"f\",)" initState rfl rfl (by decide) (by decide)

/-- C7: confirmed. In a call whose first key is the binding keyword `let`
(display name `Let`), the binding payload is rendered through `printObject`
when it is a single record (or any non-array value), and through
`printArray(arg, printObject)` — a sequence of object literals — when it is
an array, instead of recursing as an ordinary expression; every sibling key
renders as a normal call argument (`exprToString`), and the payload's
rendering precedes the sibling's in the output. -/
theorem c7_let_binding_object_literal (P Y : JsVal) (kb : String) (opts : POptions)
    (st : PState) (s : String) (st2 : PState)
    (hmap : opts.map = none)
    (hkb : (kb == "let") = false)
    (hobj : lookupKey "object" [("let", P), (kb, Y)] = none)
    (h : exprToString (.vexpr (.vobj [("let", P), (kb, Y)])) opts st =
      (some s, st2)) :
    ∃ rL rY s1 s2 s3,
      (match P with
       | JsVal.varr ys =>
         printArrayObj ys opts (pushKey (incDepth (callDecide st opts
             [("let", P), (kb, Y)])) "let") =
           (some rL, pushKey (incDepth (callDecide st opts
             [("let", P), (kb, Y)])) "let")
       | _ =>
         printObject P opts (pushKey (incDepth (callDecide st opts
             [("let", P), (kb, Y)])) "let") =
           (some rL, pushKey (incDepth (callDecide st opts
             [("let", P), (kb, Y)])) "let")) ∧
      exprToString Y opts (pushKey (incDepth (callDecide st opts
          [("let", P), (kb, Y)])) kb) =
        (some rY, pushKey (incDepth (callDecide st opts
          [("let", P), (kb, Y)])) kb) ∧
      s = s1 ++ rL ++ s2 ++ rY ++ s3 := by
  have hrun := exprToString_run _ _ _ _ _ h
  obtain ⟨stC, rL, rY, sepL, sepY, hstC, hL, hY, hsEq, -⟩ :=
    call_pair_decomp _ "let" kb P Y opts st s st2 hmap hobj hrun
  subst hstC
  have hres : resolveName "let" = "Let" := by decide
  rw [hres] at hL hY hsEq
  have hYtask : letArgTask "Let" kb Y = .tExpr Y := by
    unfold letArgTask
    rw [hkb]
    simp
  rw [hYtask] at hY
  have hY2 : exprToString Y opts (pushKey (incDepth (callDecide st opts
      [("let", P), (kb, Y)])) kb) =
      (some rY, pushKey (incDepth (callDecide st opts
        [("let", P), (kb, Y)])) kb) := hY
  have hnorev : shouldReverseArgs "Let" = false := rfl
  refine ⟨rL, rY,
    eol (callDecide st opts [("let", P), (kb, Y)]) ("Let" ++ "(") ++
      (if (incDepth (callDecide st opts [("let", P), (kb, Y)])).compact then ""
       else indentMarker (incDepth (callDecide st opts
         [("let", P), (kb, Y)])).printDepth),
    sepL ++
      (if (incDepth (callDecide st opts [("let", P), (kb, Y)])).compact then ""
       else indentMarker (incDepth (callDecide st opts
         [("let", P), (kb, Y)])).printDepth),
    sepY ++ indent (callDecide st opts [("let", P), (kb, Y)]) ")",
    ?_, hY2, ?_⟩
  · clear hsEq h hrun
    cases P <;> exact hL
  · rw [hsEq]
    have hjn : String.join ([] : List String) = "" := rfl
    simp [hnorev, strJoin_cons, hjn, indent_eq, String.append_assoc, String.append_empty]

/-- C7 witness: both payload shapes. `{let: [{x: 1}], in: Expr(2)}`
renders its array payload as a sequence of object literals, and
`{let: {x: 1}, in: Expr(2)}` renders its record payload as a
single object literal; in both, the payload's rendering comes first. -/
theorem c7_let_witness :
    (∃ rL rY s1 s2 s3,
      printArrayObj [JsVal.vobj [("x", JsVal.vnum 1)]] defaultOptions
          (pushKey (incDepth (callDecide initState defaultOptions
            [("let", JsVal.varr [JsVal.vobj [("x", JsVal.vnum 1)]]),
             ("in", JsVal.vexpr (JsVal.vnum 2))])) "let") =
        (some rL, pushKey (incDepth (callDecide initState defaultOptions
            [("let", JsVal.varr [JsVal.vobj [("x", JsVal.vnum 1)]]),
             ("in", JsVal.vexpr (JsVal.vnum 2))])) "let") ∧
      exprToString (JsVal.vexpr (JsVal.vnum 2)) defaultOptions
          (pushKey (incDepth (callDecide initState defaultOptions
            [("let", JsVal.varr [JsVal.vobj [("x", JsVal.vnum 1)]]),
             ("in", JsVal.vexpr (JsVal.vnum 2))])) "in") =
        (some rY, pushKey (incDepth (callDecide initState defaultOptions
            [("let", JsVal.varr [JsVal.vobj [("x", JsVal.vnum 1)]]),
             ("in", JsVal.vexpr (JsVal.vnum 2))])) "in") ∧
      "Let(\n・ [\n・ ・ \x7b\n・ ・ ・ x: 1,\n・ ・ \x7d,\n・ ],\n・ 2,\n)" =
        s1 ++ rL ++ s2 ++ rY ++ s3) ∧
    (∃ rL rY s1 s2 s3,
      printObject (JsVal.vobj [("x", JsVal.vnum 1)]) defaultOptions
          (pushKey (incDepth (callDecide initState defaultOptions
            [("let", JsVal.vobj [("x", JsVal.vnum 1)]),
             ("in", JsVal.vexpr (JsVal.vnum 2))])) "let") =
        (some rL, pushKey (incDepth (callDecide initState defaultOptions
            [("let", JsVal.vobj [("x", JsVal.vnum 1)]),
             ("in", JsVal.vexpr (JsVal.vnum 2))])) "let") ∧
      exprToString (JsVal.vexpr (JsVal.vnum 2)) defaultOptions
          (pushKey (incDepth (callDecide initState defaultOptions
            [("let", JsVal.vobj [("x", JsVal.vnum 1)]),
             ("in", JsVal.vexpr (JsVal.vnum 2))])) "in") =
        (some rY, pushKey (incDepth (callDecide initState defaultOptions
            [("let", JsVal.vobj [("x", JsVal.vnum 1)]),
             ("in", JsVal.vexpr (JsVal.vnum 2))])) "in") ∧
      "Let(\n・ \x7b\n・ ・ x: 1,\n・ \x7d,\n・ 2,\n)" =
        s1 ++ rL ++ s2 ++ rY ++ s3) :=
  ⟨c7_let_binding_object_literal (JsVal.varr [JsVal.vobj [("x", JsVal.vnum 1)]])
    (JsVal.vexpr (JsVal.vnum 2)) "in" defaultOptions initState
    "Let(\n・ [\n・ ・ \x7b\n・ ・ ・ x: 1,\n・ ・ \x7d,\n・ ],\n・ 2,\n)" initState
    rfl rfl rfl (by decide),
  c7_let_binding_object_literal (JsVal.vobj [("x", JsVal.vnum 1)])
    (JsVal.vexpr (JsVal.vnum 2)) "in" defaultOptions initState
    "Let(\n・ \x7b\n・ ・ x: 1,\n・ \x7d,\n・ 2,\n)" initState
    rfl rfl rfl (by decide)⟩
